import Mathlib

/-
Verification of the text-translation pipeline implemented in
`src/streamlit/01_streamlit_basics/solutions.py`.

Python strings are modelled as lists of characters (`Str`), so Python's
`len` is `List.length` and slicing is `take`/`drop`.  The external service
calls (OpenAI chat completions, GoogleTranslator, langdetect) are modelled
as fields of an `Env` record returning `Option Str`: `none` stands for a
raised-and-swallowed provider exception or an absent/None response, `some s`
for a returned string (possibly empty, which Python treats as falsy).
-/

namespace Solutions

/-- Python strings, modelled as lists of characters. -/
abbrev Str := List Char

/-- The two-character blank-line paragraph separator `"\n\n"`. -/
def nlnl : Str := ['\n', '\n']

/-- `text.split('\n\n')` (solutions.py line 187): split on the two-character
separator, scanning left to right, non-overlapping.  Like Python's
`str.split`, empty pieces are kept, and the result is never the empty
list. -/
def consHead (c : Char) : List Str → List Str
  | [] => [[c]]
  | p :: ps => (c :: p) :: ps

def splitParas : Str → List Str
  | [] => [[]]
  | '\n' :: '\n' :: rest => [] :: splitParas rest
  | c :: rest => consHead c (splitParas rest)

/-- Rejoining a paragraph list with the blank-line separator, i.e.
`"\n\n".join(...)`. -/
def joinParas : List Str → Str
  | [] => []
  | [p] => p
  | p :: ps => p ++ nlnl ++ joinParas ps

/-- The greedy paragraph-packing loop of `chunk_text`
(solutions.py lines 188-199).  `current` is the chunk being accumulated
(`current = ''` initially); the returned list is the loop's `chunks`
followed by the final `if current: chunks.append(current)`. -/
def packGo (maxChars : Nat) (current : Str) : List Str → List Str
  | [] => if current.isEmpty then [] else [current]
  | p :: ps =>
    if current.isEmpty then packGo maxChars p ps
    else if current.length + 2 + p.length ≤ maxChars then
      packGo maxChars (current ++ nlnl ++ p) ps
    else current :: packGo maxChars p ps

/-- The paragraph-level chunks of `chunk_text` (the `chunks` variable of
solutions.py line 188, after the packing loop). -/
def paraChunks (maxChars : Nat) (text : Str) : List Str :=
  packGo maxChars [] (splitParas text)

/-- The character-level hard split of an oversized chunk
(solutions.py lines 206-207): the successive slices `c[i:i+maxChars]`
for `i = 0, maxChars, 2*maxChars, ...`.  Faithful for `maxChars ≥ 1`
(Python's `range` raises for a zero step, and the claims under
verification all assume `max_chars ≥ 1`). -/
def hardSplit (maxChars : Nat) (c : Str) : List Str :=
  match c with
  | [] => []
  | x :: xs => (x :: xs.take (maxChars - 1)) :: hardSplit maxChars (xs.drop (maxChars - 1))
termination_by c.length
decreasing_by
  simp only [List.length_cons]
  exact Nat.lt_succ_of_le (List.length_drop .. ▸ Nat.sub_le _ _)

/-- `chunk_text` (solutions.py lines 185-208): paragraph packing followed
by the fallback hard split of any chunk still longer than `maxChars`
(`max_chars` defaults to 3000 in Python; callers inside solutions.py pass
the default, modelled by passing 3000 explicitly). -/
def chunk_text (text : Str) (maxChars : Nat) : List Str :=
  (paraChunks maxChars text).flatMap
    (fun c => if c.length ≤ maxChars then [c] else hardSplit maxChars c)

/-- Reinsertion of the original separators, as claim C2 prescribes it:
each paragraph-level chunk is recovered by concatenating its hard-split
slices with nothing in between, and the paragraph-level chunks are joined
with the blank-line separator. -/
def reassemble (maxChars : Nat) (text : Str) : Str :=
  joinParas ((paraChunks maxChars text).map
    (fun c => ((if c.length ≤ maxChars then [c] else hardSplit maxChars c)).flatten))

end Solutions

namespace Solutions

/-!
### difflib.SequenceMatcher

`translation_confidence` (solutions.py lines 227-242) computes
`difflib.SequenceMatcher(None, ref, cmp).ratio()`.  The relevant parts of
CPython's `difflib` are embedded below for `isjunk = None` (the only way
`solutions.py` constructs a matcher): `bjunk` is then always empty, so the
two junk-extension loops of `find_longest_match` never fire and are not
modelled; the `autojunk` popularity heuristic on `b` is modelled in `b2j`.
Floats are modelled as rationals (`ratio` only forms `2*matches/total`).
-/

/-- The ascending list of indices at which character `c` occurs in `b`
(the `b2j` chain built by `SequenceMatcher.__chain_b`). -/
def indicesOf (b : Str) (c : Char) : List Nat :=
  (List.range b.length).filter (fun j => decide (b.getD j ' ' = c))

/-- `b2j` with the `autojunk` heuristic: when `len(b) >= 200`, characters
occurring more than `len(b) // 100 + 1` times are "popular" and removed
from the index map (their lookup then yields the empty list). -/
def b2j (b : Str) (c : Char) : List Nat :=
  let idxs := indicesOf b c
  if 200 ≤ b.length ∧ b.length / 100 + 1 < idxs.length then [] else idxs

/-- Is index `r` kept in the `b2j` map of `s`, i.e. present among the
indices of its own character (false when the autojunk heuristic pruned
that character, or `r` is out of range)?  Used to analyse the behaviour of
the matcher on two equal strings. -/
def keptB (s : Str) (r : Nat) : Bool := (b2j s (s.getD r ' ')).contains r

/-- Length of the maximal run of kept indices of `s` ending at `r`. -/
def nprun (s : Str) : Nat → Nat
  | 0 => if keptB s 0 then 1 else 0
  | r + 1 => if keptB s (r + 1) then nprun s r + 1 else 0

/-- Inner loop of `find_longest_match` over the column candidates
`b2j[a[i]]` of one row `i`.  `j2len` is the previous row's dictionary
(a total function, with 0 for absent keys, matching `j2len.get(j-1, 0)`);
`newj2len` is the dictionary being built for this row; `best` is
`(besti, bestj, bestsize)`. -/
def dpInner (blo bhi i : Nat) (j2len : Nat → Nat) :
    List Nat → (Nat → Nat) → (Nat × Nat × Nat) → ((Nat → Nat) × (Nat × Nat × Nat))
  | [], newj2len, best => (newj2len, best)
  | j :: js, newj2len, best =>
    if j < blo then dpInner blo bhi i j2len js newj2len best
    else if bhi ≤ j then (newj2len, best)
    else
      let k := (if j = 0 then 0 else j2len (j - 1)) + 1
      let newj2len1 := fun j1 => if j1 = j then k else newj2len j1
      let best1 := if best.2.2 < k then (i + 1 - k, j + 1 - k, k) else best
      dpInner blo bhi i j2len js newj2len1 best1

/-- The row loop of `find_longest_match` over `i in range(alo, ahi)`. -/
def dpRows (a b : Str) (blo bhi : Nat) :
    List Nat → (Nat → Nat) → (Nat × Nat × Nat) → (Nat × Nat × Nat)
  | [], _j2len, best => best
  | i :: irest, j2len, best =>
    let row := dpInner blo bhi i j2len (b2j b (a.getD i ' ')) (fun _ => 0) best
    dpRows a b blo bhi irest row.1 row.2

/-- The backward (non-junk) extension loop of `find_longest_match`. -/
def extendBack (a b : Str) (alo blo : Nat) (besti bestj bestsize : Nat) :
    Nat × Nat × Nat :=
  if h : alo < besti ∧ blo < bestj ∧ a.getD (besti - 1) ' ' = b.getD (bestj - 1) ' ' then
    extendBack a b alo blo (besti - 1) (bestj - 1) (bestsize + 1)
  else (besti, bestj, bestsize)
termination_by besti
decreasing_by omega

/-- The forward (non-junk) extension loop of `find_longest_match`. -/
def extendFwd (a b : Str) (ahi bhi : Nat) (besti bestj bestsize : Nat) : Nat :=
  if h : besti + bestsize < ahi ∧ bestj + bestsize < bhi ∧
      a.getD (besti + bestsize) ' ' = b.getD (bestj + bestsize) ' ' then
    extendFwd a b ahi bhi besti bestj (bestsize + 1)
  else bestsize
termination_by ahi - (besti + bestsize)
decreasing_by omega

/-- `SequenceMatcher.find_longest_match` restricted to `a[alo:ahi]` and
`b[blo:bhi]`, for `isjunk = None` (empty `bjunk`). -/
def find_longest_match (a b : Str) (alo ahi blo bhi : Nat) : Nat × Nat × Nat :=
  let best := dpRows a b blo bhi (List.range' alo (ahi - alo)) (fun _ => 0) (alo, blo, 0)
  let back := extendBack a b alo blo best.1 best.2.1 best.2.2
  let size := extendFwd a b ahi bhi back.1 back.2.1 back.2.2
  (back.1, back.2.1, size)

/-! Position bounds for `find_longest_match`, needed both for the
termination of the matching-block recursion and for the `[0,1]` bound on
the similarity score. -/

/-- `best = (besti, bestj, bestsize)` describes a match of `a[alo:bnd]`
with `b[blo:bhi]`. -/
def BestOK (alo blo bhi bnd : Nat) (t : Nat × Nat × Nat) : Prop :=
  alo ≤ t.1 ∧ blo ≤ t.2.1 ∧ t.1 + t.2.2 ≤ bnd ∧ t.2.1 + t.2.2 ≤ bhi

theorem BestOK_mk (alo blo bhi bnd i j k : Nat) :
    BestOK alo blo bhi bnd (i, j, k) ↔ alo ≤ i ∧ blo ≤ j ∧ i + k ≤ bnd ∧ j + k ≤ bhi :=
  Iff.rfl

/-- Every nonzero entry of a row dictionary describes a match ending at
column `j` inside `[blo, bhi)` and at a row below `bnd`. -/
def J2OK (alo blo bhi bnd : Nat) (f : Nat → Nat) : Prop :=
  ∀ j, f j ≠ 0 → blo ≤ j ∧ j < bhi ∧ f j + blo ≤ j + 1 ∧ f j + alo ≤ bnd

theorem dpInner_ok (alo blo bhi i : Nat) (j2len : Nat → Nat)
    (hi : alo ≤ i) (hj2 : J2OK alo blo bhi i j2len) :
    ∀ js newj2len best, J2OK alo blo bhi (i + 1) newj2len →
      BestOK alo blo bhi (i + 1) best →
      J2OK alo blo bhi (i + 1) (dpInner blo bhi i j2len js newj2len best).1 ∧
      BestOK alo blo bhi (i + 1) (dpInner blo bhi i j2len js newj2len best).2 := by
  intro js
  induction js with
  | nil => intro newj2len best hnew hbest; exact ⟨hnew, hbest⟩
  | cons j js ih =>
    intro newj2len best hnew hbest
    simp only [dpInner]
    by_cases hlo : j < blo
    · rw [if_pos hlo]; exact ih newj2len best hnew hbest
    · rw [if_neg hlo]
      by_cases hhi : bhi ≤ j
      · rw [if_pos hhi]; exact ⟨hnew, hbest⟩
      · rw [if_neg hhi]
        have hblo : blo ≤ j := Nat.le_of_not_lt hlo
        have hjbhi : j < bhi := Nat.lt_of_not_le hhi
        have hk : ((if j = 0 then 0 else j2len (j - 1)) + 1) + blo ≤ j + 1 ∧
            ((if j = 0 then 0 else j2len (j - 1)) + 1) + alo ≤ i + 1 := by
          by_cases hj0 : j = 0
          · rw [if_pos hj0]; omega
          · rw [if_neg hj0]
            by_cases hz : j2len (j - 1) = 0
            · rw [hz]; omega
            · have := hj2 (j - 1) hz
              omega
        apply ih
        · intro j1 hj1
          by_cases hjj : j1 = j
          · subst hjj
            refine ⟨hblo, hjbhi, ?_, ?_⟩
            · simpa using hk.1
            · simpa using hk.2
          · simp only [if_neg hjj] at hj1 ⊢
            exact hnew j1 hj1
        · by_cases hbig : best.2.2 < (if j = 0 then 0 else j2len (j - 1)) + 1
          · rw [if_pos hbig]
            simp only [BestOK] at hbest ⊢
            omega
          · rw [if_neg hbig]; exact hbest

theorem dpRows_ok (a b : Str) (alo blo bhi : Nat) :
    ∀ (n i0 : Nat) (j2len : Nat → Nat) (best : Nat × Nat × Nat),
      alo ≤ i0 → J2OK alo blo bhi i0 j2len → BestOK alo blo bhi i0 best →
      BestOK alo blo bhi (i0 + n)
        (dpRows a b blo bhi (List.range' i0 n) j2len best) := by
  intro n
  induction n with
  | zero => intro i0 j2len best _ _ hbest; simpa [dpRows] using hbest
  | succ m ih =>
    intro i0 j2len best hi0 hj2 hbest
    rw [List.range'_succ]
    simp only [dpRows]
    have hrow := dpInner_ok alo blo bhi i0 j2len hi0 hj2
      (b2j b (a.getD i0 ' ')) (fun _ => 0) best
      (fun j hj => absurd rfl hj)
      ⟨hbest.1, hbest.2.1, Nat.le_succ_of_le hbest.2.2.1, hbest.2.2.2⟩
    have := ih (i0 + 1) _ _ (Nat.le_succ_of_le hi0) hrow.1 hrow.2
    have harith : i0 + 1 + m = i0 + (m + 1) := by omega
    rw [harith] at this
    exact this

theorem extendBack_ok (a b : Str) (alo blo bhi bnd : Nat) :
    ∀ besti bestj bestsize,
      BestOK alo blo bhi bnd (besti, bestj, bestsize) →
      BestOK alo blo bhi bnd (extendBack a b alo blo besti bestj bestsize) := by
  intro besti
  induction besti using Nat.strong_induction_on with
  | _ besti ih =>
    intro bestj bestsize hok
    rw [extendBack]
    split
    · next h =>
      apply ih (besti - 1) (by omega)
      rw [BestOK_mk] at hok ⊢
      omega
    · exact hok

theorem extendFwd_ok (a b : Str) (alo blo ahi bhi : Nat) :
    ∀ fuel besti bestj bestsize, ahi - (besti + bestsize) ≤ fuel →
      BestOK alo blo bhi ahi (besti, bestj, bestsize) →
      bestj + bestsize ≤ bhi →
      BestOK alo blo bhi ahi (besti, bestj, extendFwd a b ahi bhi besti bestj bestsize) ∧
      bestj + extendFwd a b ahi bhi besti bestj bestsize ≤ bhi := by
  intro fuel
  induction fuel with
  | zero =>
    intro besti bestj bestsize hfuel hok hbj
    rw [extendFwd]
    split
    · next h => exfalso; omega
    · exact ⟨hok, hbj⟩
  | succ m ih =>
    intro besti bestj bestsize hfuel hok hbj
    rw [BestOK_mk] at hok
    rw [extendFwd]
    split
    · next h =>
      exact ih besti bestj (bestsize + 1) (by omega) (by rw [BestOK_mk]; omega) (by omega)
    · exact ⟨by rw [BestOK_mk]; omega, hbj⟩

theorem find_longest_match_ok (a b : Str) (alo ahi blo bhi : Nat)
    (ha : alo ≤ ahi) (hb : blo ≤ bhi) :
    alo ≤ (find_longest_match a b alo ahi blo bhi).1 ∧
    (find_longest_match a b alo ahi blo bhi).1 +
      (find_longest_match a b alo ahi blo bhi).2.2 ≤ ahi ∧
    blo ≤ (find_longest_match a b alo ahi blo bhi).2.1 ∧
    (find_longest_match a b alo ahi blo bhi).2.1 +
      (find_longest_match a b alo ahi blo bhi).2.2 ≤ bhi := by
  unfold find_longest_match
  have hrows := dpRows_ok a b alo blo bhi (ahi - alo) alo (fun _ => 0) (alo, blo, 0)
    (Nat.le_refl alo) (fun j hj => absurd rfl hj)
    (by rw [BestOK_mk]; omega)
  have harith : alo + (ahi - alo) = ahi := by omega
  rw [harith] at hrows
  set best := dpRows a b blo bhi (List.range' alo (ahi - alo)) (fun _ => 0) (alo, blo, 0)
    with hbestdef
  have hback := extendBack_ok a b alo blo bhi ahi best.1 best.2.1 best.2.2
    ⟨hrows.1, hrows.2.1, hrows.2.2.1, hrows.2.2.2⟩
  set back := extendBack a b alo blo best.1 best.2.1 best.2.2 with hbackdef
  have hfwd := extendFwd_ok a b alo blo ahi bhi (ahi - (back.1 + back.2.2))
    back.1 back.2.1 back.2.2 (Nat.le_refl _) hback hback.2.2.2
  exact ⟨hfwd.1.1, hfwd.1.2.2.1, hfwd.1.2.1, hfwd.2⟩

/-- Weight of one window for the termination measure of the
`get_matching_blocks` stack loop. -/
def windowWeight (w : Nat × Nat × Nat × Nat) : Nat := 2 * (w.2.1 - w.1) + 1

/-- Total weight of the pending queue. -/
def queueWeight (q : List (Nat × Nat × Nat × Nat)) : Nat :=
  (q.map windowWeight).sum

/-- Upper bound on the total match size obtainable inside one window:
no family of non-overlapping matches of `a[alo:ahi]` with `b[blo:bhi]` can
match more than `min (ahi-alo) (bhi-blo)` elements. -/
def windowCap (w : Nat × Nat × Nat × Nat) : Nat :=
  min (w.2.1 - w.1) (w.2.2.2 - w.2.2.1)

/-- Total match-size capacity of the pending queue. -/
def queueCap (q : List (Nat × Nat × Nat × Nat)) : Nat :=
  (q.map windowCap).sum

/-- The stack loop of `SequenceMatcher.get_matching_blocks`.  The Python
list used as a stack (append/pop at the end) is modelled with its top at
the head, so the second sub-window is pushed on top of the first.  The
well-formedness test `alo ≤ ahi ∧ blo ≤ bhi` holds for every window that
is ever enqueued (it holds for the initial window, and
`find_longest_match_ok` propagates it to both sub-windows); it is checked
here only so that termination is manifest, and does not alter the
function's value on reachable queues. -/
def gmbGo (a b : Str) :
    List (Nat × Nat × Nat × Nat) → List (Nat × Nat × Nat) → List (Nat × Nat × Nat)
  | [], acc => acc
  | (alo, ahi, blo, bhi) :: queue, acc =>
    if _hab : alo ≤ ahi ∧ blo ≤ bhi then
      let m := find_longest_match a b alo ahi blo bhi
      if _hk0 : m.2.2 = 0 then gmbGo a b queue acc
      else
        let q1 := if alo < m.1 ∧ blo < m.2.1 then (alo, m.1, blo, m.2.1) :: queue else queue
        let q2 := if m.1 + m.2.2 < ahi ∧ m.2.1 + m.2.2 < bhi then
          (m.1 + m.2.2, ahi, m.2.1 + m.2.2, bhi) :: q1 else q1
        gmbGo a b q2 (acc ++ [m])
    else gmbGo a b queue acc
termination_by queue _ => queueWeight queue
decreasing_by
  · simp only [queueWeight, List.map_cons, List.sum_cons, windowWeight]
    omega
  · have hok := find_longest_match_ok a b alo ahi blo bhi _hab.1 _hab.2
    simp only [show m = find_longest_match a b alo ahi blo bhi from rfl] at *
    obtain ⟨h1, h2, _h3, _h4⟩ := hok
    split
    · split
      · simp only [queueWeight, List.map_cons, List.sum_cons, windowWeight]
        omega
      · simp only [queueWeight, List.map_cons, List.sum_cons, windowWeight]
        omega
    · split
      · simp only [queueWeight, List.map_cons, List.sum_cons, windowWeight]
        omega
      · simp only [queueWeight, List.map_cons, List.sum_cons, windowWeight]
        omega
  · simp only [queueWeight, List.map_cons, List.sum_cons, windowWeight]
    omega

/-- Lexicographic order on block triples, i.e. Python's tuple order used
by `matching_blocks.sort()`. -/
def blockLe (x y : Nat × Nat × Nat) : Bool :=
  decide (x.1 < y.1 ∨ (x.1 = y.1 ∧ (x.2.1 < y.2.1 ∨ (x.2.1 = y.2.1 ∧ x.2.2 ≤ y.2.2))))

def insertBlock (x : Nat × Nat × Nat) : List (Nat × Nat × Nat) → List (Nat × Nat × Nat)
  | [] => [x]
  | y :: ys => if blockLe x y then x :: y :: ys else y :: insertBlock x ys

/-- Sorting of the collected blocks (`matching_blocks.sort()`).  Since the
lexicographic order on triples of naturals is a total order, insertion
sort produces the same list as Python's sort. -/
def sortBlocks : List (Nat × Nat × Nat) → List (Nat × Nat × Nat)
  | [] => []
  | x :: xs => insertBlock x (sortBlocks xs)

/-- The adjacent-block merging loop of `get_matching_blocks`
(state `i1, j1, k1`, initially all zero). -/
def mergeAdjacent (i1 j1 k1 : Nat) :
    List (Nat × Nat × Nat) → List (Nat × Nat × Nat)
  | [] => if k1 ≠ 0 then [(i1, j1, k1)] else []
  | (i2, j2, k2) :: rest =>
    if i1 + k1 = i2 ∧ j1 + k1 = j2 then mergeAdjacent i1 j1 (k1 + k2) rest
    else if k1 ≠ 0 then (i1, j1, k1) :: mergeAdjacent i2 j2 k2 rest
    else mergeAdjacent i2 j2 k2 rest

/-- `SequenceMatcher.get_matching_blocks` for `isjunk = None`:
collect blocks over the window stack, sort, merge adjacent blocks, and
append the `(len(a), len(b), 0)` terminator. -/
def get_matching_blocks (a b : Str) : List (Nat × Nat × Nat) :=
  mergeAdjacent 0 0 0 (sortBlocks (gmbGo a b [(0, a.length, 0, b.length)] [])) ++
    [(a.length, b.length, 0)]

/-- Sum of the sizes of a list of blocks
(`sum(triple[-1] for triple in ...)`). -/
def blocksTotal (bs : List (Nat × Nat × Nat)) : Nat :=
  (bs.map (fun m => m.2.2)).sum

/-- `SequenceMatcher.ratio()` (via `_calculate_ratio`): `2*M/T` where `M`
is the total matched size and `T = len(a) + len(b)`, and `1.0` for two
empty sequences.  Floats are modelled as rationals. -/
def ratioScore (a b : Str) : ℚ :=
  if a.length + b.length ≠ 0 then
    (2 * (blocksTotal (get_matching_blocks a b) : ℚ)) / ((a.length : ℚ) + (b.length : ℚ))
  else 1

/-- `translation_confidence` (solutions.py lines 227-242).  A provided but
empty `back_translated` is falsy in Python, so the comparison then falls
back to `translated`; the matcher is built as
`SequenceMatcher(None, ref, cmp)` with `ref = original`. -/
def translation_confidence (original translated : Str)
    (back_translated : Option Str) : ℚ :=
  let cmpStr := match back_translated with
    | some bt => if bt.isEmpty then translated else bt
    | none => translated
  ratioScore original cmpStr

/-!
### The translation pipeline

External services are abstracted into an environment record.  Each field
returns `Option Str`: `none` models a raised (and internally swallowed)
provider exception, an absent client response, or Python `None`; `some s`
models a returned string, possibly empty (empty strings are falsy in
Python and the code's truthiness tests are modelled explicitly).
-/

/-- The string `"auto"`. -/
def autoStr : Str := ['a', 'u', 't', 'o']

/-- The sentinel `"und"`. -/
def undStr : Str := ['u', 'n', 'd']

/-- `str.lower()`, character-wise (ASCII model of Python case folding). -/
def lowerStr (s : Str) : Str := s.map Char.toLower

/-- `str.strip()`: remove leading and trailing whitespace. -/
def trimStr (s : Str) : Str :=
  ((s.dropWhile Char.isWhitespace).reverse.dropWhile Char.isWhitespace).reverse

/-- `str.split()` with no argument: split on whitespace runs, discarding
empty pieces (used by `detect_language` only to count words).  `cur` is
the current token, accumulated in reverse. -/
def splitWsGo (cur : List Char) : Str → List Str
  | [] => if cur.isEmpty then [] else [cur.reverse]
  | c :: cs =>
    if c.isWhitespace then
      if cur.isEmpty then splitWsGo [] cs else cur.reverse :: splitWsGo [] cs
    else splitWsGo (c :: cur) cs

def splitWs (s : Str) : List Str := splitWsGo [] s

/-- The external world of solutions.py.
`llm_translate text target hint` is the chat-completion call of
`translate_via_openai` (system message determined by `target` and the
source hint of line 100), with the dict-or-object content extraction and
the surrounding try/except folded into the `Option`.  `llm_detect` and
`llm_pron` model the chat calls of `detect_via_openai` and
`generate_pronunciation` the same way; `google` models
`GoogleTranslator(source=src, target=target).translate(text)`;
`langdetect` models `langdetect.detect` (`none` = `LangDetectException`). -/
structure Env where
  openai_client : Bool
  llm_translate : Str → Str → Option Str → Option Str
  llm_detect : Str → Option Str
  llm_pron : Str → Str → Option Str
  google : Str → Str → Str → Option Str
  langdetect : Str → Option Str

/-- The `src_hint` computation of `translate_via_openai` (line 100): a
source hint is included in the system message iff `source_lang` is truthy
and not `'auto'`. -/
def srcHint : Option Str → Option Str
  | some s => if s ≠ [] ∧ s ≠ autoStr then some s else none
  | none => none

/-- `translate_via_openai` (lines 92-123). -/
def translate_via_openai (env : Env) (text target : Str)
    (source_lang : Option Str) : Option Str :=
  if env.openai_client then env.llm_translate text target (srcHint source_lang)
  else none

/-- The `source` argument passed to `GoogleTranslator` (line 130):
`'auto' if not source_lang or source_lang == 'auto' else source_lang`. -/
def googleSrc : Option Str → Str
  | none => autoStr
  | some s => if s = [] ∨ s = autoStr then autoStr else s

/-- `translate_via_google` (lines 126-134). -/
def translate_via_google (env : Env) (text target : Str)
    (source_lang : Option Str) : Option Str :=
  env.google text target (googleSrc source_lang)

/-- `detect_via_openai` (lines 46-77): `None` without a client, otherwise
the model's answer, stripped and lowercased, with falsy answers mapped to
`None`. -/
def detect_via_openai (env : Env) (text : Str) : Option Str :=
  if env.openai_client then
    match env.llm_detect text with
    | none => none
    | some code => if code = [] then none else some (lowerStr (trimStr code))
  else none

/-- `detect_language` (lines 22-43): for short inputs (at most 6
whitespace-separated words) with a configured client, try the LLM
detector first and fall through to langdetect on a falsy answer. -/
def detect_language (env : Env) (text : Str) : Option Str :=
  let words := (splitWs text).length
  if env.openai_client ∧ words ≤ 6 then
    match detect_via_openai env text with
    | some code => if code = [] then env.langdetect text else some code
    | none => env.langdetect text
  else env.langdetect text

/-- `detect_language(text) or "und"` (falsy detection results are replaced
by the sentinel). -/
def detectOrUnd (env : Env) (text : Str) : Str :=
  match detect_language env text with
  | some d => if d = [] then undStr else d
  | none => undStr

/-- The `detected` resolution shared by `translate` (line 142) and
`translate_long_text` (line 215):
`source_lang if source_lang and source_lang != 'auto' else (detect_language(text) or "und")`. -/
def resolveDetected (env : Env) (text : Str) (source_lang : Option Str) : Str :=
  match source_lang with
  | some s => if s ≠ [] ∧ s ≠ autoStr then s else detectOrUnd env text
  | none => detectOrUnd env text

/-- `translate` (lines 137-155): try OpenAI first, fall back to
GoogleTranslator on an unavailable client or falsy output, strip the
returned text, and return `(None, detected)` if both backends fail. -/
def translate (env : Env) (text target : Str) (source_lang : Option Str) :
    Option Str × Str :=
  let detected := resolveDetected env text source_lang
  let googleStep : Option Str × Str :=
    match translate_via_google env text target source_lang with
    | some out => if out = [] then (none, detected) else (some (trimStr out), detected)
    | none => (none, detected)
  if env.openai_client then
    match translate_via_openai env text target source_lang with
    | some out => if out = [] then googleStep else (some (trimStr out), detected)
    | none => googleStep
  else googleStep

/-!
### apply_glossary

`apply_glossary` (lines 165-182) builds the regular expression
`\b(t1|t2|...|tn)\b` from the glossary keys, sorted by decreasing length
(Python's sort is stable, so equal-length keys stay in dictionary
insertion order), and substitutes every match with the `replace` closure,
case-insensitively.  `re.escape` makes the keys literal, so the regex is
modelled directly: a term matches at a position iff it matches the text
there case-insensitively and both ends lie on a `\b` word boundary; the
scan is Python's `re.sub` left-to-right non-overlapping scan, alternatives
tried in list order, with the zero-width-match behaviour of `re.sub` for
empty keys.  Word characters and case folding are modelled at ASCII
fidelity (`\w` = alphanumeric or underscore). -/

/-- A Python dict of glossary entries, as an insertion-ordered association
list with (by dict semantics) pairwise distinct keys. -/
abbrev Glossary := List (Str × Str)

def isWordChar (c : Char) : Bool := c.isAlphanum || c = '_'

/-- Case-insensitive character comparison (`re.IGNORECASE`). -/
def ciEq (c d : Char) : Bool := c.toLower == d.toLower

/-- Does `t` match the beginning of `rest` case-insensitively? -/
def ciMatchTerm : Str → Str → Bool
  | [], _ => true
  | _ :: _, [] => false
  | t :: ts, c :: cs => ciEq t c && ciMatchTerm ts cs

/-- The `\b` word-boundary test between an optional previous and next
character. -/
def wordB (prev next : Option Char) : Bool :=
  (match prev with | some c => isWordChar c | none => false) !=
  (match next with | some c => isWordChar c | none => false)

/-- Does term `t` produce a whole-word, case-insensitive match at the
current position (`prev` = preceding character of the text, `rest` = text
from the current position on)? -/
def matchesHere (t : Str) (prev : Option Char) (rest : Str) : Bool :=
  ciMatchTerm t rest &&
  wordB prev rest.head? &&
  wordB (if t.isEmpty then prev else (rest.take t.length).getLast?)
    (rest.drop t.length).head?

/-- First term of the alternation that matches at the current position. -/
def findTerm (terms : List Str) (prev : Option Char) (rest : Str) : Option Str :=
  match terms with
  | [] => none
  | t :: ts => if matchesHere t prev rest then some t else findTerm ts prev rest

theorem ciMatchTerm_le (t rest : Str) (h : ciMatchTerm t rest = true) :
    t.length ≤ rest.length := by
  induction t generalizing rest with
  | nil => simp
  | cons x xs ih =>
    cases rest with
    | nil => simp [ciMatchTerm] at h
    | cons c cs =>
      simp only [ciMatchTerm, Bool.and_eq_true] at h
      simpa using ih cs h.2

theorem findTerm_matches (terms : List Str) (prev : Option Char) (rest : Str)
    (t : Str) (h : findTerm terms prev rest = some t) :
    matchesHere t prev rest = true := by
  induction terms with
  | nil => simp [findTerm] at h
  | cons u us ih =>
    simp only [findTerm] at h
    by_cases hm : matchesHere u prev rest = true
    · rw [if_pos hm] at h
      cases h
      exact hm
    · rw [if_neg hm] at h
      exact ih h

/-- Python's stable sort of the glossary terms by decreasing length
(`sorted(..., key=len, reverse=True)`). -/
def insertTerm (x : Str) : List Str → List Str
  | [] => [x]
  | y :: ys => if y.length ≤ x.length then x :: y :: ys else y :: insertTerm x ys

def sortTermsDesc : List Str → List Str
  | [] => []
  | x :: xs => insertTerm x (sortTermsDesc xs)

/-- The `replace` closure (lines 172-175):
`glossary.get(word.lower()) or glossary.get(word)`, keeping the matched
text when the final lookup is `None` (an empty string, being non-`None`,
does replace). -/
def glossReplace (g : Glossary) (word : Str) : Str :=
  let repl : Option Str :=
    match List.lookup (lowerStr word) g with
    | some v => if v = [] then List.lookup word g else some v
    | none => List.lookup word g
  match repl with
  | some r => r
  | none => word

/-- The `re.sub` scan: at each position try the alternatives in order; on
a match, emit the replacement of the matched text and resume after it (a
zero-width match additionally copies one character, as `re.sub` does);
otherwise copy one character.  Word boundaries are evaluated against the
original text (`prev` is the previous character of the input). -/
def subScan (g : Glossary) (terms : List Str) (prev : Option Char) (rest : Str) : Str :=
  match _hf : findTerm terms prev rest with
  | some t =>
    let matched := rest.take t.length
    if _ht : t.isEmpty then
      match rest with
      | [] => glossReplace g matched
      | c :: cs => glossReplace g matched ++ [c] ++ subScan g terms (some c) cs
    else
      glossReplace g matched ++
        subScan g terms matched.getLast? (rest.drop t.length)
  | none =>
    match rest with
    | [] => []
    | c :: cs => c :: subScan g terms (some c) cs
termination_by rest.length
decreasing_by
  · simp only [List.length_cons]; omega
  · have hm := findTerm_matches terms prev rest t _hf
    simp only [matchesHere, Bool.and_eq_true] at hm
    have hlen := ciMatchTerm_le t rest hm.1.1
    have ht1 : t.length ≠ 0 := by
      simpa [List.isEmpty_iff, List.length_eq_zero] using _ht
    have := List.length_drop t.length rest
    omega
  · simp only [List.length_cons]; omega

/-- `apply_glossary` (lines 165-182). -/
def apply_glossary (text : Str) (g : Glossary) : Str :=
  if g.isEmpty then text
  else subScan g (sortTermsDesc (g.map (fun p => p.1))) none text

/-- `apply_glossary(t, glossary) if glossary else t` (an absent or empty
glossary is falsy). -/
def applyGloss (gloss : Option Glossary) (t : Str) : Str :=
  match gloss with
  | some g => if g.isEmpty then t else apply_glossary t g
  | none => t

/-- Word-character status of an optional preceding character (absent
counts as non-word, as `\b` treats string edges). -/
def prevW : Option Char → Bool
  | some c => isWordChar c
  | none => false

/-- Word-character status of the first character of a string. -/
def headW (rest : Str) : Bool := prevW rest.head?

/-- The scan of `rest` in context `prev` finds no match at any position
(so `re.sub` copies it verbatim). -/
def noMatchScan (terms : List Str) : Option Char → Str → Bool
  | prev, [] => (findTerm terms prev []).isNone
  | prev, c :: cs => (findTerm terms prev (c :: cs)).isNone && noMatchScan terms (some c) cs

/-- Scan context after emitting the original text `v`: its last character
if any, otherwise the previous context. -/
def prevCtxAfter (p : Option Char) (v : Str) : Option Char :=
  match v.getLast? with
  | some c => some c
  | none => p

/-- `x` and `y` agree on their leading word-character run, and right
after that run both continue with a non-word character or end. -/
def wchain : Str → Str → Prop
  | [], [] => True
  | [], y :: _ => isWordChar y = false
  | x :: _, [] => isWordChar x = false
  | x :: xs, y :: ys => if isWordChar x = true then x = y ∧ wchain xs ys else isWordChar y = false

/-- Fuel-bounded structural version of the `re.sub` scan, used to evaluate
`subScan` on concrete inputs. -/
def subScanFuel (g : Glossary) (terms : List Str) :
    Nat → Option Char → Str → Str
  | 0, _, _ => []
  | fuel + 1, prev, rest =>
    match findTerm terms prev rest with
    | some t =>
      if t.isEmpty then
        match rest with
        | [] => glossReplace g (rest.take t.length)
        | c :: cs =>
          glossReplace g (rest.take t.length) ++ [c] ++
            subScanFuel g terms fuel (some c) cs
      else
        glossReplace g (rest.take t.length) ++
          subScanFuel g terms fuel (rest.take t.length).getLast? (rest.drop t.length)
    | none =>
      match rest with
      | [] => []
      | c :: cs => c :: subScanFuel g terms fuel (some c) cs

/-!
### translate_long_text and batch_translate
-/

/-- The per-chunk loop of `translate_long_text` (lines 217-223), with the
accumulated translated chunks in reverse order. -/
def translate_long_go (env : Env) (target : Str) (src : Option Str)
    (gloss : Option Glossary) (detected : Str) :
    List Str → List Str → Option Str × Str
  | [], acc => (some (joinParas acc.reverse), detected)
  | c :: cs, acc =>
    let c_pre := applyGloss gloss c
    let r := translate env c_pre target src
    match r.1 with
    | none => (none, r.2)
    | some out => translate_long_go env target src gloss detected cs (out :: acc)

/-- `translate_long_text` (lines 211-224); `chunk_text` is called with its
default `max_chars = 3000`. -/
def translate_long_text (env : Env) (text target : Str) (src : Option Str)
    (gloss : Option Glossary) : Option Str × Str :=
  let detected := resolveDetected env text src
  translate_long_go env target src gloss detected (chunk_text text 3000) []

/-- `generate_pronunciation` (lines 245-272). -/
def generate_pronunciation (env : Env) (text target : Str) : Option Str :=
  if env.openai_client then
    match env.llm_pron text target with
    | none => none
    | some code => if code = [] then none else some (trimStr code)
  else none

/-- One result dict of `batch_translate`. -/
structure BatchItem where
  original : Str
  detected : Str
  translated : Option Str
  back_translation : Option Str
  confidence : ℚ
  pronunciation : Option Str
deriving DecidableEq

/-- The target language of the back-translation call (line 287):
`source_lang if source_lang and source_lang != 'auto' else detected`. -/
def backTargetLang (src : Option Str) (detected : Str) : Str :=
  match src with
  | some s => if s ≠ [] ∧ s ≠ autoStr then s else detected
  | none => detected

/-- The body of `batch_translate`'s loop for one input text
(lines 278-301): glossary, forward translation, back-translation and
confidence for truthy results, optional pronunciation. -/
def processItem (env : Env) (target : Str) (src : Option Str)
    (gloss : Option Glossary) (doPron : Bool) (t : Str) : BatchItem :=
  let t_pre := applyGloss gloss t
  let r := translate env t_pre target src
  match r.1 with
  | some tr =>
    if tr.isEmpty then
      { original := t, detected := r.2, translated := some tr,
        back_translation := none, confidence := 0, pronunciation := none }
    else
      let back := (translate env tr (backTargetLang src r.2) target).1
      { original := t, detected := r.2, translated := some tr,
        back_translation := back,
        confidence := translation_confidence t tr back,
        pronunciation := if doPron then generate_pronunciation env tr target else none }
  | none =>
    { original := t, detected := r.2, translated := none,
      back_translation := none, confidence := 0, pronunciation := none }

/-- `batch_translate` (lines 275-302): the loop appends exactly one result
per input text, in order, i.e. a map of `processItem`. -/
def batch_translate (env : Env) (texts : List Str) (target : Str)
    (src : Option Str) (gloss : Option Glossary) (doPron : Bool) : List BatchItem :=
  texts.map (processItem env target src gloss doPron)

/-!
### Concrete stub environments

Used by the witnesses and counterexamples below (deterministic provider
stubs, as §8 of the specification prescribes for testing).
-/

/-- No client, every provider fails. -/
def envNone : Env :=
  ⟨false, fun _ _ _ => none, fun _ => none, fun _ _ => none,
    fun _ _ _ => none, fun _ => none⟩

/-- A configured primary backend that prepends `" P"` to the text (note
the leading space, to exercise stripping); no secondary backend. -/
def envPrim : Env :=
  ⟨true, fun text _ _ => some (' ' :: 'P' :: text), fun _ => none,
    fun _ _ => none, fun _ _ _ => none, fun _ => some ['e', 'n']⟩

/-- No primary client; a secondary backend that prepends `'G'`. -/
def envGoog : Env :=
  ⟨false, fun _ _ _ => none, fun _ => none, fun _ _ => none,
    fun text _ _ => some ('G' :: text), fun _ => some ['e', 'n']⟩

/-- A primary backend that reveals the source hint it was given:
it answers `'H'` followed by the hint when a hint is present and
`"nohint"` otherwise.  Statistical detection always answers `"en"`. -/
def envC5 : Env :=
  ⟨true,
    fun _ _ hint =>
      match hint with
      | some h => some ('H' :: h)
      | none => some ['n', 'o', 'h', 'i', 'n', 't'],
    fun _ => none, fun _ _ => none, fun _ _ _ => none, fun _ => some ['e', 'n']⟩

/-- A secondary backend that echoes the text for target `"fr"` and fails
for every other target, so forward translation succeeds and the
back-translation (target `"en"`) fails. -/
def envC4 : Env :=
  ⟨false, fun _ _ _ => none, fun _ => none, fun _ _ => none,
    fun text tgt _ => if tgt = ['f', 'r'] then some text else none,
    fun _ => some ['e', 'n']⟩

end Solutions

namespace Solutions

/-! ### Lemmas about the chunker -/

theorem joinParas_nil : joinParas [] = [] := rfl

theorem joinParas_single (p : Str) : joinParas [p] = p := rfl

theorem joinParas_cons_cons (p q : Str) (qs : List Str) :
    joinParas (p :: q :: qs) = p ++ nlnl ++ joinParas (q :: qs) := rfl

theorem splitParas_ne_nil (s : Str) : splitParas s ≠ [] := by
  induction s using splitParas.induct with
  | case1 => simp [splitParas]
  | case2 rest ih => simp [splitParas]
  | case3 c rest _h ih =>
    simp only [splitParas, consHead]
    split <;> simp_all [consHead]

theorem joinParas_consHead (c : Char) (ps : List Str) (hps : ps ≠ []) :
    joinParas (consHead c ps) = c :: joinParas ps := by
  match ps with
  | [] => exact absurd rfl hps
  | [p] => rfl
  | p :: q :: qs => rfl

theorem joinParas_splitParas (s : Str) : joinParas (splitParas s) = s := by
  induction s using splitParas.induct with
  | case1 => rfl
  | case2 rest ih =>
    have h := splitParas_ne_nil rest
    simp only [splitParas]
    obtain ⟨p, ps, hs⟩ := List.exists_cons_of_ne_nil h
    rw [hs, joinParas_cons_cons, ← hs, ih]
    rfl
  | case3 c rest _h ih =>
    simp only [splitParas]
    rw [joinParas_consHead c _ (splitParas_ne_nil rest), ih]

theorem hardSplit_flatten (maxChars : Nat) (_h : 1 ≤ maxChars) (c : Str) :
    (hardSplit maxChars c).flatten = c := by
  induction c using hardSplit.induct maxChars with
  | case1 => simp [hardSplit]
  | case2 x xs ih =>
    simp only [hardSplit, List.flatten_cons, ih, List.cons_append]
    rw [List.take_append_drop]

theorem hardSplit_length_le (maxChars : Nat) (h : 1 ≤ maxChars) (c : Str) :
    ∀ p ∈ hardSplit maxChars c, p.length ≤ maxChars := by
  induction c using hardSplit.induct maxChars with
  | case1 => simp [hardSplit]
  | case2 x xs ih =>
    intro p hp
    simp only [hardSplit, List.mem_cons] at hp
    rcases hp with rfl | hp
    · simp only [List.length_cons]
      have := List.length_take_le (maxChars - 1) xs
      omega
    · exact ih p hp

theorem packGo_ne_nil (maxChars : Nat) (paras : List Str) :
    ∀ current, current ≠ [] → packGo maxChars current paras ≠ [] := by
  induction paras with
  | nil =>
    intro current hc
    simp [packGo, List.isEmpty_iff, hc]
  | cons p ps ih =>
    intro current hc
    simp only [packGo, List.isEmpty_iff, hc, if_false, if_neg]
    by_cases hfit : current.length + 2 + p.length ≤ maxChars
    · rw [if_pos hfit]
      exact ih _ (by simp [nlnl])
    · rw [if_neg hfit]
      simp

theorem joinParas_packGo_ne (maxChars : Nat) (paras : List Str)
    (h : ∀ p ∈ paras, p ≠ []) :
    ∀ current, current ≠ [] →
      joinParas (packGo maxChars current paras) = joinParas (current :: paras) := by
  induction paras with
  | nil =>
    intro current hc
    simp only [packGo, List.isEmpty_iff]
    rw [if_neg hc]
  | cons p ps ih =>
    intro current hc
    have hp : p ≠ [] := h p (by simp)
    have hps : ∀ q ∈ ps, q ≠ [] := fun q hq => h q (by simp [hq])
    have hcne : current.isEmpty = false := by simp [List.isEmpty_iff, hc]
    simp only [packGo, hcne, Bool.false_eq_true, if_false]
    by_cases hfit : current.length + 2 + p.length ≤ maxChars
    · rw [if_pos hfit, ih hps _ (by simp [nlnl])]
      cases ps with
      | nil => simp [joinParas_single, joinParas_cons_cons, List.append_assoc]
      | cons q qs =>
        simp only [joinParas_cons_cons, List.append_assoc]
    · rw [if_neg hfit]
      obtain ⟨r, rs, hpg⟩ :=
        List.exists_cons_of_ne_nil (packGo_ne_nil maxChars ps p hp)
      rw [hpg, joinParas_cons_cons, ← hpg, ih hps p hp, joinParas_cons_cons]

theorem joinParas_packGo_start (maxChars : Nat) (paras : List Str)
    (h : ∀ p ∈ paras, p ≠ []) :
    joinParas (packGo maxChars [] paras) = joinParas paras := by
  cases paras with
  | nil => rfl
  | cons p ps =>
    have hp : p ≠ [] := h p (by simp)
    have hps : ∀ q ∈ ps, q ≠ [] := fun q hq => h q (by simp [hq])
    show joinParas (packGo maxChars [] (p :: ps)) = _
    simp only [packGo, List.isEmpty_nil, if_true]
    exact joinParas_packGo_ne maxChars ps hps p hp

theorem map_id_of_mem {α : Type} (l : List α) (f : α → α) (h : ∀ a ∈ l, f a = a) :
    l.map f = l := by
  induction l with
  | nil => rfl
  | cons a as ih =>
    simp only [List.map_cons, h a (by simp)]
    rw [ih fun b hb => h b (by simp [hb])]

/-! ### Claim C7 -/

/-- C7: for every input text and every `max_chars ≥ 1`, every string in the
list returned by `chunk_text(text, max_chars)` has length at most
`max_chars`. -/
theorem claim_C7_chunk_length (text : Str) (maxChars : Nat) (h : 1 ≤ maxChars) :
    ∀ c ∈ chunk_text text maxChars, c.length ≤ maxChars := by
  intro c hc
  simp only [chunk_text, List.mem_flatMap] at hc
  obtain ⟨c₀, _hc₀, hmem⟩ := hc
  by_cases hle : c₀.length ≤ maxChars
  · rw [if_pos hle] at hmem
    simp only [List.mem_singleton] at hmem
    exact hmem ▸ hle
  · rw [if_neg hle] at hmem
    exact hardSplit_length_le maxChars h c₀ c hmem

theorem claim_C7_chunk_length_witness :
    1 ≤ 2 ∧ ∀ c ∈ chunk_text ['a', 'b', 'c'] 2, c.length ≤ 2 :=
  ⟨by decide, claim_C7_chunk_length ['a', 'b', 'c'] 2 (by decide)⟩

/-! ### Claim C2 -/

/-- C2 counterexample: for the text `"\n\na"` (a leading blank-line
separator, i.e. an empty first paragraph) and `max_chars = 5`,
`chunk_text` returns the single chunk `"a"`, so rejoining the chunks with
the original separators yields `"a"`, not the input text: the packing loop
drops empty paragraphs. -/
theorem claim_C2_roundtrip_cex :
    chunk_text ['\n', '\n', 'a'] 5 = [['a']] ∧
    reassemble 5 ['\n', '\n', 'a'] = ['a'] ∧
    (['a'] : Str) ≠ ['\n', '\n', 'a'] := by
  decide

/-- C2 (amended): for every `max_chars ≥ 1` and every text in which no
paragraph (piece of `text.split('\n\n')`) is empty, rejoining the chunks
returned by `chunk_text` with the original separators — the blank-line
separator between paragraph-level chunks and nothing between hard-split
slices — reproduces the input text exactly.  (The restriction is forced:
the packing loop silently drops empty paragraphs, see the counterexample.) -/
theorem claim_C2_roundtrip (text : Str) (maxChars : Nat)
    (h1 : 1 ≤ maxChars) (h2 : [] ∉ splitParas text) :
    reassemble maxChars text = text ∧
    chunk_text text maxChars =
      ((paraChunks maxChars text).map
        (fun c => if c.length ≤ maxChars then [c] else hardSplit maxChars c)).flatten := by
  constructor
  · unfold reassemble
    have hne : ∀ p ∈ splitParas text, p ≠ [] := fun p hp hcon => h2 (hcon ▸ hp)
    have heq : (paraChunks maxChars text).map
        (fun c => ((if c.length ≤ maxChars then [c] else hardSplit maxChars c)).flatten) =
        paraChunks maxChars text := by
      apply map_id_of_mem
      intro c _hc
      by_cases hle : c.length ≤ maxChars
      · rw [if_pos hle]; simp
      · rw [if_neg hle]; exact hardSplit_flatten maxChars h1 c
    rw [heq]
    unfold paraChunks
    rw [joinParas_packGo_start maxChars _ hne, joinParas_splitParas]
  · simp [chunk_text, List.flatMap_def]

theorem claim_C2_roundtrip_witness :
    (1 ≤ 3 ∧ ([] : Str) ∉ splitParas ['a', 'b', '\n', '\n', 'c']) ∧
    (reassemble 3 ['a', 'b', '\n', '\n', 'c'] = ['a', 'b', '\n', '\n', 'c'] ∧
      chunk_text ['a', 'b', '\n', '\n', 'c'] 3 =
        ((paraChunks 3 ['a', 'b', '\n', '\n', 'c']).map
          (fun c => if c.length ≤ 3 then [c] else hardSplit 3 c)).flatten) :=
  ⟨⟨by decide, by decide⟩,
    claim_C2_roundtrip ['a', 'b', '\n', '\n', 'c'] 3 (by decide) (by decide)⟩

/-! ### Lemmas about translate -/

theorem translate_googleStep (env : Env) (text target : Str) (src : Option Str)
    (h : env.openai_client = false ∨ translate_via_openai env text target src = none ∨
      translate_via_openai env text target src = some []) :
    translate env text target src =
      match translate_via_google env text target src with
      | some out =>
        if out = [] then (none, resolveDetected env text src)
        else (some (trimStr out), resolveDetected env text src)
      | none => (none, resolveDetected env text src) := by
  simp only [translate]
  rcases h with h | h | h
  · rw [h]
    simp
  · rw [h]
    by_cases hcl : env.openai_client = true <;> simp [hcl]
  · rw [h]
    by_cases hcl : env.openai_client = true <;> simp [hcl]

theorem translate_fallback_cases (env : Env) (text target : Str) (src : Option Str)
    (hprim : env.openai_client = false ∨ translate_via_openai env text target src = none ∨
      translate_via_openai env text target src = some []) :
    (∃ gout, translate_via_google env text target src = some gout ∧ gout ≠ [] ∧
      translate env text target src =
        (some (trimStr gout), resolveDetected env text src)) ∨
    translate env text target src = (none, resolveDetected env text src) := by
  have hgs := translate_googleStep env text target src hprim
  cases hg : translate_via_google env text target src with
  | some gout =>
    by_cases hge : gout = []
    · right
      rw [hgs]
      simp [hg, hge]
    · left
      refine ⟨gout, rfl, hge, ?_⟩
      rw [hgs]
      simp only [hg]
      rw [if_neg hge]
  | none =>
    right
    rw [hgs]
    simp [hg]

/-- Total case analysis of `translate`: primary success, fallback success,
or failure — in each case the result is fully determined. -/
theorem translate_cases (env : Env) (text target : Str) (src : Option Str) :
    (∃ out, env.openai_client = true ∧
      translate_via_openai env text target src = some out ∧ out ≠ [] ∧
      translate env text target src =
        (some (trimStr out), resolveDetected env text src)) ∨
    (∃ gout, translate_via_google env text target src = some gout ∧ gout ≠ [] ∧
      translate env text target src =
        (some (trimStr gout), resolveDetected env text src)) ∨
    translate env text target src = (none, resolveDetected env text src) := by
  by_cases hcl : env.openai_client = true
  · cases hop : translate_via_openai env text target src with
    | some out =>
      by_cases hoe : out = []
      · subst hoe
        exact Or.inr (translate_fallback_cases env text target src (Or.inr (Or.inr hop)))
      · refine Or.inl ⟨out, hcl, rfl, hoe, ?_⟩
        simp only [translate, hcl, if_true, hop]
        rw [if_neg hoe]
    | none =>
      exact Or.inr (translate_fallback_cases env text target src (Or.inr (Or.inl hop)))
  · have hcl' : env.openai_client = false := by
      revert hcl
      cases env.openai_client <;> simp
    exact Or.inr (translate_fallback_cases env text target src (Or.inl hcl'))

/-! ### Claim C1 -/

/-- C1: `translate` attempts the primary (OpenAI) backend first and
returns its stripped output when it is truthy; when the primary backend is
unavailable (`openai_client` absent) or returns falsy content it falls
back to the secondary (Google) backend, again stripping truthy output;
when both backends fail it returns `(none, detected)`.  Every returned
string is the `strip` of some backend output, the second component is
always the resolved detected language, and (being a total function of the
environment) the embedded `translate` models the source's
catch-all-and-degrade behaviour: no exception escapes. -/
theorem claim_C1_translate_fallback (env : Env) (text target : Str) (src : Option Str) :
    (∀ out, env.openai_client = true →
      translate_via_openai env text target src = some out → out ≠ [] →
      translate env text target src =
        (some (trimStr out), resolveDetected env text src)) ∧
    ((env.openai_client = false ∨ translate_via_openai env text target src = none ∨
        translate_via_openai env text target src = some []) →
      (∀ gout, translate_via_google env text target src = some gout → gout ≠ [] →
        translate env text target src =
          (some (trimStr gout), resolveDetected env text src)) ∧
      ((translate_via_google env text target src = none ∨
          translate_via_google env text target src = some []) →
        translate env text target src = (none, resolveDetected env text src))) ∧
    (∀ t, (translate env text target src).1 = some t → ∃ s, t = trimStr s) ∧
    (translate env text target src).2 = resolveDetected env text src := by
  refine ⟨?_, ?_, ?_, ?_⟩
  · intro out hcl hout hne
    simp only [translate, hcl, if_true, hout]
    rw [if_neg hne]
  · intro hprim
    have hgs := translate_googleStep env text target src hprim
    constructor
    · intro gout hg hgne
      rw [hgs]
      simp only [hg]
      rw [if_neg hgne]
    · intro hgoog
      rw [hgs]
      rcases hgoog with h | h
      · simp [h]
      · simp [h]
  · intro t ht
    rcases translate_cases env text target src with
      ⟨out, _, _, _, heq⟩ | ⟨gout, _, _, heq⟩ | heq
    · rw [heq] at ht
      simp only [Option.some.injEq] at ht
      exact ⟨out, ht.symm⟩
    · rw [heq] at ht
      simp only [Option.some.injEq] at ht
      exact ⟨gout, ht.symm⟩
    · rw [heq] at ht
      simp at ht
  · rcases translate_cases env text target src with
      ⟨out, _, _, _, heq⟩ | ⟨gout, _, _, heq⟩ | heq <;> rw [heq]

theorem claim_C1_translate_fallback_witness :
    (translate envPrim ['h', 'i'] ['e', 's'] none =
      (some (trimStr [' ', 'P', 'h', 'i']), resolveDetected envPrim ['h', 'i'] none)) ∧
    (translate envGoog ['h', 'i'] ['e', 's'] none =
      (some (trimStr ['G', 'h', 'i']), resolveDetected envGoog ['h', 'i'] none)) ∧
    (translate envNone ['h', 'i'] ['e', 's'] none =
      (none, resolveDetected envNone ['h', 'i'] none)) :=
  ⟨(claim_C1_translate_fallback envPrim ['h', 'i'] ['e', 's'] none).1
      [' ', 'P', 'h', 'i'] (by decide) (by decide) (by decide),
    ((claim_C1_translate_fallback envGoog ['h', 'i'] ['e', 's'] none).2.1
      (Or.inl (by decide))).1 ['G', 'h', 'i'] (by decide) (by decide),
    ((claim_C1_translate_fallback envNone ['h', 'i'] ['e', 's'] none).2.1
      (Or.inl (by decide))).2 (Or.inl (by decide))⟩

/-! ### Claim C5 -/

/-- C5 counterexample: with a caller-supplied `source_lang = None` and a
detector that succeeds with `"en"` (so the resolved detected language is
`"en"`, not `"auto"` and not absent), the primary backend is invoked with
NO source hint: the revealing stub `envC5` answers `"nohint"`, while a
call carrying the detected hint would have answered `"Hen"`.  So the
claim that the detected code is passed to the primary backend is false —
`translate` passes the raw `source_lang` (line 146), not `detected`. -/
theorem claim_C5_cex :
    resolveDetected envC5 ['h', 'e', 'l', 'l', 'o'] none = ['e', 'n'] ∧
    (['e', 'n'] : Str) ≠ autoStr ∧
    translate envC5 ['h', 'e', 'l', 'l', 'o'] ['e', 's'] none =
      (some ['n', 'o', 'h', 'i', 'n', 't'], ['e', 'n']) ∧
    envC5.llm_translate ['h', 'e', 'l', 'l', 'o'] ['e', 's'] (some ['e', 'n']) =
      some ['H', 'e', 'n'] ∧
    (['n', 'o', 'h', 'i', 'n', 't'] : Str) ≠ ['H', 'e', 'n'] := by
  decide

/-- C5 (amended): the primary backend's source hint is computed from the
caller's `source_lang` alone (`srcHint`, line 100): when the caller
supplies a truthy `source_lang ≠ 'auto'`, the hint is exactly that
language — which then also equals the resolved `detected` — and when the
caller passes `None`, `'auto'` or `''`, no hint is passed at all, even if
detection succeeds. -/
theorem claim_C5_primary_hint (env : Env) (text target : Str) (src : Option Str) :
    (∀ out, env.openai_client = true →
      env.llm_translate text target (srcHint src) = some out → out ≠ [] →
      translate env text target src =
        (some (trimStr out), resolveDetected env text src)) ∧
    (∀ s, src = some s → s ≠ [] → s ≠ autoStr →
      srcHint src = some s ∧ resolveDetected env text src = s) ∧
    ((src = none ∨ src = some autoStr ∨ src = some []) → srcHint src = none) := by
  refine ⟨?_, ?_, ?_⟩
  · intro out hcl hout hne
    have hop : translate_via_openai env text target src = some out := by
      simp only [translate_via_openai, hcl, if_true, hout]
    exact (claim_C1_translate_fallback env text target src).1 out hcl hop hne
  · intro s hs hne hna
    subst hs
    constructor
    · simp [srcHint, hne, hna]
    · simp [resolveDetected, hne, hna]
  · intro h
    rcases h with h | h | h <;> subst h <;> simp [srcHint]

theorem claim_C5_primary_hint_witness :
    (translate envPrim ['h', 'i'] ['e', 's'] none =
      (some (trimStr [' ', 'P', 'h', 'i']), resolveDetected envPrim ['h', 'i'] none)) ∧
    (srcHint (some ['d', 'e']) = some ['d', 'e'] ∧
      resolveDetected envPrim ['h', 'i'] (some ['d', 'e']) = ['d', 'e']) ∧
    srcHint (some autoStr) = none :=
  ⟨(claim_C5_primary_hint envPrim ['h', 'i'] ['e', 's'] none).1
      [' ', 'P', 'h', 'i'] (by decide) (by decide) (by decide),
    (claim_C5_primary_hint envPrim ['h', 'i'] (['e', 's'] : Str)
      (some ['d', 'e'])).2.1 ['d', 'e'] rfl (by decide) (by decide),
    (claim_C5_primary_hint envPrim ['h', 'i'] (['e', 's'] : Str)
      (some autoStr)).2.2 (Or.inr (Or.inl rfl))⟩

/-! ### Claim C3 -/

theorem translate_long_go_abort (env etr : Env) (target : Str) (src : Option Str)
    (gloss : Option Glossary) (detected : Str) :
    ∀ (cs : List Str) (acc : List Str) (i : Nat) (hi : i < cs.length),
      (∀ j (hj : j < cs.length), j < i →
        (translate etr (applyGloss gloss (cs.get ⟨j, hj⟩)) target src).1 ≠ none) →
      (translate etr (applyGloss gloss (cs.get ⟨i, hi⟩)) target src).1 = none →
      (∀ j (hj : j < cs.length), j ≤ i →
        translate env (applyGloss gloss (cs.get ⟨j, hj⟩)) target src =
          translate etr (applyGloss gloss (cs.get ⟨j, hj⟩)) target src) →
      translate_long_go env target src gloss detected cs acc =
        (none, (translate etr (applyGloss gloss (cs.get ⟨i, hi⟩)) target src).2) := by
  intro cs
  induction cs with
  | nil =>
    intro acc i hi
    exact absurd hi (Nat.not_lt_zero i)
  | cons c cs ih =>
    intro acc i hi hsucc hfail hagree
    simp only [translate_long_go]
    have h0 : translate env (applyGloss gloss c) target src =
        translate etr (applyGloss gloss c) target src :=
      hagree 0 (Nat.succ_pos _) (Nat.zero_le i)
    rw [h0]
    cases i with
    | zero =>
      have hf0 : (translate etr (applyGloss gloss c) target src).1 = none := hfail
      rw [hf0]
      rfl
    | succ i0 =>
      have hne : (translate etr (applyGloss gloss c) target src).1 ≠ none :=
        hsucc 0 (Nat.succ_pos _) (Nat.succ_pos i0)
      cases hr : (translate etr (applyGloss gloss c) target src).1 with
      | none => exact absurd hr hne
      | some out =>
        exact ih (out :: acc) i0 (Nat.lt_of_succ_lt_succ hi)
          (fun j hj hji => hsucc (j + 1) (Nat.succ_lt_succ hj) (Nat.succ_lt_succ hji))
          hfail
          (fun j hj hji => hagree (j + 1) (Nat.succ_lt_succ hj) (Nat.succ_le_succ hji))

/-- C3: if the chunks of `text` (with the default `max_chars = 3000`)
translate successfully before index `i` and the translation of chunk `i`
fails, then `translate_long_text` returns `(none, detected)` where
`detected` is the second component of that very failed `translate` call;
and the result is the same in any environment `env` that agrees with
`etr` on the translate calls for chunks up to `i` — the translator's
behaviour on later chunks cannot influence the outcome, i.e. no later
chunk is ever passed to the translator, and no partial translation is
returned. -/
theorem claim_C3_long_text_abort (env etr : Env) (text target : Str)
    (src : Option Str) (gloss : Option Glossary) (i : Nat)
    (hi : i < (chunk_text text 3000).length)
    (hsucc : ∀ j (hj : j < (chunk_text text 3000).length), j < i →
      (translate etr (applyGloss gloss ((chunk_text text 3000).get ⟨j, hj⟩)) target src).1 ≠ none)
    (hfail : (translate etr
      (applyGloss gloss ((chunk_text text 3000).get ⟨i, hi⟩)) target src).1 = none)
    (hagree : ∀ j (hj : j < (chunk_text text 3000).length), j ≤ i →
      translate env (applyGloss gloss ((chunk_text text 3000).get ⟨j, hj⟩)) target src =
        translate etr (applyGloss gloss ((chunk_text text 3000).get ⟨j, hj⟩)) target src) :
    translate_long_text env text target src gloss =
      (none, (translate etr
        (applyGloss gloss ((chunk_text text 3000).get ⟨i, hi⟩)) target src).2) := by
  unfold translate_long_text
  exact translate_long_go_abort env etr target src gloss
    (resolveDetected env text src) (chunk_text text 3000) [] i hi hsucc hfail hagree

theorem claim_C3_long_text_abort_witness :
    0 < (chunk_text ['h', 'i'] 3000).length ∧
    translate_long_text envNone ['h', 'i'] ['e', 's'] none none =
      (none, (translate envNone
        (applyGloss none ((chunk_text ['h', 'i'] 3000).get
          ⟨0, by decide⟩)) ['e', 's'] none).2) :=
  ⟨by decide,
    claim_C3_long_text_abort envNone envNone ['h', 'i'] ['e', 's'] none none 0
      (by decide)
      (fun j hj hj0 => absurd hj0 (Nat.not_lt_zero j))
      (by decide)
      (fun j hj hj0 => rfl)⟩

/-! ### Claim C8 -/

/-- C8: `batch_translate` returns exactly one item per input text, in
input order — it is the map of a per-item function over the inputs, so an
item depends on its own input text only and a failure for one input
cannot affect the others; each item's `original` field is the
corresponding input text; and when the forward translation of an item
fails, that item has `translated = none` and `confidence = 0.0`. -/
theorem claim_C8_batch_shape (env : Env) (texts : List Str) (target : Str)
    (src : Option Str) (gloss : Option Glossary) (doPron : Bool) :
    (batch_translate env texts target src gloss doPron).length = texts.length ∧
    batch_translate env texts target src gloss doPron =
      texts.map (processItem env target src gloss doPron) ∧
    (∀ t, (processItem env target src gloss doPron t).original = t) ∧
    (∀ t, (translate env (applyGloss gloss t) target src).1 = none →
      (processItem env target src gloss doPron t).translated = none ∧
      (processItem env target src gloss doPron t).confidence = 0) := by
  refine ⟨by simp [batch_translate], rfl, ?_, ?_⟩
  · intro t
    simp only [processItem]
    cases hr : (translate env (applyGloss gloss t) target src).1 with
    | none => rfl
    | some tr =>
      by_cases he : tr.isEmpty
      · simp [he]
      · simp [he]
  · intro t hfail
    simp [processItem, hfail]

theorem claim_C8_batch_shape_witness :
    (batch_translate envNone [['h', 'i'], ['y', 'o']] ['e', 's'] none none false).length = 2 ∧
    ((translate envNone (applyGloss none ['h', 'i']) ['e', 's'] none).1 = none →
      (processItem envNone ['e', 's'] none none false ['h', 'i']).translated = none ∧
      (processItem envNone ['e', 's'] none none false ['h', 'i']).confidence = 0) :=
  ⟨(claim_C8_batch_shape envNone [['h', 'i'], ['y', 'o']]
      ['e', 's'] none none false).1,
    (claim_C8_batch_shape envNone [['h', 'i'], ['y', 'o']]
      ['e', 's'] none none false).2.2.2 ['h', 'i']⟩

/-! ### Claim C4 (amended part) -/

/-- C4 (amended): in `batch_translate`, when an item's forward translation
succeeds with truthy output `tr` but the back-translation step fails, the
item is still produced, with `back_translation = none` — but its
confidence is `translation_confidence(original, translated, None)`, the
direct similarity of the original and the forward translation, not `0.0`
(the code only passes `back=None` into the scorer, which then compares
`original` with `translated`). -/
theorem claim_C4_back_failure (env : Env) (target : Str) (src : Option Str)
    (gloss : Option Glossary) (doPron : Bool) (t tr : Str)
    (hfwd : (translate env (applyGloss gloss t) target src).1 = some tr)
    (htr : tr ≠ [])
    (hback : (translate env tr
      (backTargetLang src (translate env (applyGloss gloss t) target src).2) target).1 = none) :
    processItem env target src gloss doPron t =
      { original := t,
        detected := (translate env (applyGloss gloss t) target src).2,
        translated := some tr,
        back_translation := none,
        confidence := translation_confidence t tr none,
        pronunciation := if doPron then generate_pronunciation env tr target else none } := by
  have he : tr.isEmpty = false := by simp [List.isEmpty_iff, htr]
  simp only [processItem, hfwd, he, Bool.false_eq_true, if_false, hback]

theorem claim_C4_back_failure_witness :
    processItem envC4 ['f', 'r'] none none false ['a', 'b'] =
      { original := ['a', 'b'],
        detected := (translate envC4 (applyGloss none ['a', 'b']) ['f', 'r'] none).2,
        translated := some ['a', 'b'],
        back_translation := none,
        confidence := translation_confidence ['a', 'b'] ['a', 'b'] none,
        pronunciation := none } :=
  claim_C4_back_failure envC4 ['f', 'r'] none none false ['a', 'b'] ['a', 'b']
    (by decide) (by decide) (by decide)

end Solutions

namespace Solutions

theorem blocksTotal_append (l1 l2 : List (Nat × Nat × Nat)) :
    blocksTotal (l1 ++ l2) = blocksTotal l1 + blocksTotal l2 := by
  simp [blocksTotal]

theorem gmbGo_total (a b : Str) : ∀ queue acc,
    blocksTotal (gmbGo a b queue acc) ≤ blocksTotal acc + queueCap queue := by
  intro queue acc
  induction queue, acc using gmbGo.induct a b with
  | case1 acc => simp [gmbGo]
  | case2 alo ahi blo bhi queue acc hab m hk ih =>
    have hk' : (find_longest_match a b alo ahi blo bhi).2.2 = 0 := hk
    rw [gmbGo, dif_pos hab]
    simp only []
    rw [dif_pos hk']
    refine le_trans ih ?_
    simp [queueCap]
  | case3 alo ahi blo bhi queue acc hab m hk q1 q2 ih =>
    have hm : m = find_longest_match a b alo ahi blo bhi := rfl
    have hq1 : q1 = if alo < m.1 ∧ blo < m.2.1 then (alo, m.1, blo, m.2.1) :: queue else queue := rfl
    have hq2 : q2 = if m.1 + m.2.2 < ahi ∧ m.2.1 + m.2.2 < bhi then
        (m.1 + m.2.2, ahi, m.2.1 + m.2.2, bhi) :: q1 else q1 := rfl
    rw [gmbGo, dif_pos hab]
    simp only []
    rw [dif_neg hk, ← hq1, ← hq2]
    refine le_trans ih ?_
    rw [blocksTotal_append]
    have hok := find_longest_match_ok a b alo ahi blo bhi hab.1 hab.2
    rw [← hm] at hok
    rw [hq2, hq1]
    have hkk : m.2.2 ≠ 0 := hk
    by_cases h2 : m.1 + m.2.2 < ahi ∧ m.2.1 + m.2.2 < bhi
    · rw [if_pos h2]
      by_cases h1 : alo < m.1 ∧ blo < m.2.1
      · rw [if_pos h1]
        simp only [queueCap, windowCap, List.map_cons, List.sum_cons, blocksTotal,
          List.map_append, List.sum_append, List.map_nil, List.sum_nil]
        omega
      · rw [if_neg h1]
        simp only [queueCap, windowCap, List.map_cons, List.sum_cons, blocksTotal,
          List.map_append, List.sum_append, List.map_nil, List.sum_nil]
        omega
    · rw [if_neg h2]
      by_cases h1 : alo < m.1 ∧ blo < m.2.1
      · rw [if_pos h1]
        simp only [queueCap, windowCap, List.map_cons, List.sum_cons, blocksTotal,
          List.map_append, List.sum_append, List.map_nil, List.sum_nil]
        omega
      · rw [if_neg h1]
        simp only [queueCap, windowCap, List.map_cons, List.sum_cons, blocksTotal,
          List.map_append, List.sum_append, List.map_nil, List.sum_nil]
        omega
  | case4 alo ahi blo bhi queue acc hab ih =>
    rw [gmbGo, dif_neg hab]
    refine le_trans ih ?_
    simp [queueCap]

end Solutions

namespace Solutions

theorem blocksTotal_insertBlock (x : Nat × Nat × Nat) (l : List (Nat × Nat × Nat)) :
    blocksTotal (insertBlock x l) = x.2.2 + blocksTotal l := by
  induction l with
  | nil => simp [insertBlock, blocksTotal]
  | cons y ys ih =>
    simp only [insertBlock]
    by_cases h : blockLe x y = true
    · rw [if_pos h]
      simp [blocksTotal]
    · rw [if_neg h]
      simp only [blocksTotal, List.map_cons, List.sum_cons] at ih ⊢
      omega

theorem blocksTotal_sortBlocks (l : List (Nat × Nat × Nat)) :
    blocksTotal (sortBlocks l) = blocksTotal l := by
  induction l with
  | nil => rfl
  | cons x xs ih =>
    simp only [sortBlocks, blocksTotal_insertBlock, ih]
    simp only [blocksTotal, List.map_cons, List.sum_cons]

theorem blocksTotal_mergeAdjacent (l : List (Nat × Nat × Nat)) :
    ∀ i1 j1 k1, blocksTotal (mergeAdjacent i1 j1 k1 l) = k1 + blocksTotal l := by
  induction l with
  | nil =>
    intro i1 j1 k1
    simp only [mergeAdjacent]
    by_cases h : k1 ≠ 0
    · rw [if_pos h]; simp [blocksTotal]
    · rw [if_neg h]; simp only [not_not] at h; simp [blocksTotal, h]
  | cons y ys ih =>
    intro i1 j1 k1
    obtain ⟨i2, j2, k2⟩ := y
    simp only [mergeAdjacent]
    by_cases hadj : i1 + k1 = i2 ∧ j1 + k1 = j2
    · rw [if_pos hadj, ih]
      simp only [blocksTotal, List.map_cons, List.sum_cons]
      ring
    · rw [if_neg hadj]
      by_cases h : k1 ≠ 0
      · rw [if_pos h]
        simp only [blocksTotal, List.map_cons, List.sum_cons] at ih ⊢
        rw [ih]
      · rw [if_neg h]
        simp only [not_not] at h
        rw [ih]
        simp only [blocksTotal, List.map_cons, List.sum_cons]
        omega

theorem blocksTotal_gmb_le (a b : Str) :
    blocksTotal (get_matching_blocks a b) ≤ min a.length b.length := by
  unfold get_matching_blocks
  rw [blocksTotal_append, blocksTotal_mergeAdjacent, blocksTotal_sortBlocks]
  have h := gmbGo_total a b [(0, a.length, 0, b.length)] []
  simp only [blocksTotal, List.map_nil, List.sum_nil, queueCap, windowCap,
    List.map_cons, List.sum_cons] at h ⊢
  omega

theorem ratioScore_nonneg (a b : Str) : 0 ≤ ratioScore a b := by
  unfold ratioScore
  split
  · positivity
  · norm_num

theorem ratioScore_le_one (a b : Str) : ratioScore a b ≤ 1 := by
  unfold ratioScore
  split
  · next h =>
    have hM := blocksTotal_gmb_le a b
    have hden : (0 : ℚ) < (a.length : ℚ) + (b.length : ℚ) := by
      have : 0 < a.length + b.length := Nat.pos_of_ne_zero h
      exact_mod_cast this
    rw [div_le_one hden]
    have h2 : 2 * blocksTotal (get_matching_blocks a b) ≤ a.length + b.length := by
      omega
    exact_mod_cast h2
  · exact le_refl 1

end Solutions

namespace Solutions

theorem mem_indicesOf (s : Str) (c : Char) (j : Nat) :
    j ∈ indicesOf s c ↔ j < s.length ∧ s.getD j ' ' = c := by
  simp [indicesOf, List.mem_filter, List.mem_range]

theorem b2j_eq_nil_or (s : Str) (c : Char) :
    b2j s c = [] ∨ b2j s c = indicesOf s c := by
  unfold b2j
  simp only []
  split
  · exact Or.inl rfl
  · exact Or.inr rfl

theorem mem_b2j (s : Str) (c : Char) (j : Nat) (h : j ∈ b2j s c) :
    j < s.length ∧ s.getD j ' ' = c := by
  rcases b2j_eq_nil_or s c with h0 | h0
  · rw [h0] at h
    simp at h
  · rw [h0] at h
    exact (mem_indicesOf s c j).mp h

theorem keptB_of_mem_b2j (s : Str) (c : Char) (j : Nat) (h : j ∈ b2j s c) :
    keptB s j = true := by
  have hm := mem_b2j s c j h
  unfold keptB
  rw [hm.2]
  exact List.elem_eq_true_of_mem h

theorem keptB_row (s : Str) (r : Nat) (hr : r < s.length)
    (hne : b2j s (s.getD r ' ') ≠ []) : keptB s r = true := by
  rcases b2j_eq_nil_or s (s.getD r ' ') with h0 | h0
  · exact absurd h0 hne
  · unfold keptB
    rw [h0]
    exact List.elem_eq_true_of_mem ((mem_indicesOf s _ r).mpr ⟨hr, rfl⟩)

theorem nprun_kept (s : Str) (j : Nat) (h : keptB s j = true) :
    nprun s j = (if j = 0 then 0 else nprun s (j - 1)) + 1 := by
  cases j with
  | zero => simp [nprun, h]
  | succ r => simp [nprun, h]

theorem nprun_not_kept (s : Str) (j : Nat) (h : keptB s j = false) :
    nprun s j = 0 := by
  cases j with
  | zero => simp [nprun, h]
  | succ r => simp [nprun, h]

theorem nprun_pos_of_kept (s : Str) (j : Nat) (h : keptB s j = true) :
    1 ≤ nprun s j := by
  rw [nprun_kept s j h]
  omega

theorem indicesOf_pairwise (s : Str) (c : Char) :
    (indicesOf s c).Pairwise (· < ·) := by
  unfold indicesOf
  exact List.Pairwise.sublist (List.filter_sublist _) (List.pairwise_lt_range _)

theorem b2j_pairwise (s : Str) (c : Char) : (b2j s c).Pairwise (· < ·) := by
  rcases b2j_eq_nil_or s c with h0 | h0 <;> rw [h0]
  · exact List.Pairwise.nil
  · exact indicesOf_pairwise s c

end Solutions

namespace Solutions

theorem mem_of_keptB (s : Str) (r : Nat) (h : keptB s r = true) :
    r ∈ b2j s (s.getD r ' ') :=
  List.mem_of_elem_eq_true h

/-- One row of the DP on the full self-window: if the incoming dictionary
and best state respect the kept-run structure of `s`, so does the state
after processing the row's candidate columns — in particular the best
match stays on the main diagonal. -/
theorem dpInnerSelf (s : Str) (r : Nat) (hr : r < s.length) (f : Nat → Nat)
    (hf1 : ∀ j, f j ≤ nprun s j)
    (hf2 : keptB s r = true → ∀ j, f j + 1 ≤ nprun s r)
    (hf3 : keptB s r = true → (if r = 0 then 0 else f (r - 1)) + 1 = nprun s r) :
    ∀ (js : List Nat) (g : Nat → Nat) (best : Nat × Nat × Nat),
      (∀ j ∈ js, j ∈ b2j s (s.getD r ' ')) →
      List.Pairwise (· < ·) js →
      (∀ j, g j ≤ nprun s j) →
      (∀ j, g j ≤ nprun s r) →
      (g r = nprun s r ∨ r ∈ js) →
      best.1 = best.2.1 →
      (∀ q, q < r → nprun s q ≤ best.2.2) →
      (nprun s r ≤ best.2.2 ∨ r ∈ js) →
      (∀ j, (dpInner 0 s.length r f js g best).1 j ≤ nprun s j) ∧
      (∀ j, (dpInner 0 s.length r f js g best).1 j ≤ nprun s r) ∧
      (dpInner 0 s.length r f js g best).1 r = nprun s r ∧
      (dpInner 0 s.length r f js g best).2.1 = (dpInner 0 s.length r f js g best).2.2.1 ∧
      (∀ q, q ≤ r → nprun s q ≤ (dpInner 0 s.length r f js g best).2.2.2) := by
  intro js
  induction js with
  | nil =>
    intro g best _ _ hg1 hg2 hgr hdiag hbelow hphase
    simp only [dpInner]
    refine ⟨hg1, hg2, ?_, hdiag, ?_⟩
    · rcases hgr with h | h
      · exact h
      · simp at h
    · intro q hq
      rcases Nat.lt_or_ge q r with hlt | hge
      · exact hbelow q hlt
      · have hqr : q = r := Nat.le_antisymm hq hge
        subst hqr
        rcases hphase with h | h
        · exact h
        · simp at h
  | cons j js ih =>
    intro g best hmem hpair hg1 hg2 hgr hdiag hbelow hphase
    have hjmem : j ∈ b2j s (s.getD r ' ') := hmem j (List.mem_cons_self j js)
    obtain ⟨hjn, _hjc⟩ := mem_b2j s (s.getD r ' ') j hjmem
    have hkeptj : keptB s j = true := keptB_of_mem_b2j s _ j hjmem
    have hkeptr : keptB s r = true := keptB_row s r hr (List.ne_nil_of_mem hjmem)
    have hnprunj : 1 ≤ nprun s j := nprun_pos_of_kept s j hkeptj
    have hnprunr : 1 ≤ nprun s r := nprun_pos_of_kept s r hkeptr
    have hmem' : ∀ x ∈ js, x ∈ b2j s (s.getD r ' ') :=
      fun x hx => hmem x (List.mem_cons_of_mem j hx)
    have hpair' : List.Pairwise (· < ·) js := hpair.of_cons
    have hgt : ∀ x ∈ js, j < x := (List.pairwise_cons.mp hpair).1
    simp only [dpInner]
    rw [if_neg (Nat.not_lt_zero j), if_neg (Nat.not_le.mpr hjn)]
    have hkj : (if j = 0 then 0 else f (j - 1)) + 1 ≤ nprun s j := by
      by_cases hj0 : j = 0
      · rw [if_pos hj0]
        omega
      · rw [if_neg hj0]
        have h1 := hf1 (j - 1)
        have h2 := nprun_kept s j hkeptj
        rw [if_neg hj0] at h2
        omega
    have hkr : (if j = 0 then 0 else f (j - 1)) + 1 ≤ nprun s r := by
      by_cases hj0 : j = 0
      · rw [if_pos hj0]
        omega
      · rw [if_neg hj0]
        exact hf2 hkeptr (j - 1)
    by_cases hjr : j = r
    · -- the diagonal cell: the computed length equals the run length
      subst hjr
      have hkeq : (if j = 0 then 0 else f (j - 1)) + 1 = nprun s j := hf3 hkeptr
      apply ih _ _ hmem' hpair'
      · intro j1
        by_cases h : j1 = j
        · subst h
          rw [if_pos rfl]
          exact hkj
        · rw [if_neg h]
          exact hg1 j1
      · intro j1
        by_cases h : j1 = j
        · subst h
          rw [if_pos rfl]
          exact hkr
        · rw [if_neg h]
          exact hg2 j1
      · left
        rw [if_pos rfl]
        exact hkeq
      · by_cases hup : best.2.2 < (if j = 0 then 0 else f (j - 1)) + 1
        · rw [if_pos hup]
        · rw [if_neg hup]
          exact hdiag
      · intro q hq
        by_cases hup : best.2.2 < (if j = 0 then 0 else f (j - 1)) + 1
        · rw [if_pos hup]
          have := hbelow q hq
          simp only []
          omega
        · rw [if_neg hup]
          exact hbelow q hq
      · left
        by_cases hup : best.2.2 < (if j = 0 then 0 else f (j - 1)) + 1
        · rw [if_pos hup]
          simp only []
          omega
        · rw [if_neg hup]
          omega
    · -- an off-diagonal cell never beats the current best
      have hnoup : ¬ best.2.2 < (if j = 0 then 0 else f (j - 1)) + 1 := by
        rcases Nat.lt_or_ge j r with hlt | hge
        · have := hbelow j hlt
          omega
        · have hgtr : r < j := Nat.lt_of_le_of_ne hge (fun h => hjr h.symm)
          rcases hphase with h | h
          · omega
          · rcases List.mem_cons.mp h with h | h
            · exact absurd h.symm hjr
            · exact absurd (hgt r h) (Nat.lt_asymm hgtr)
      rw [if_neg hnoup]
      apply ih _ _ hmem' hpair'
      · intro j1
        by_cases h : j1 = j
        · subst h
          rw [if_pos rfl]
          exact hkj
        · rw [if_neg h]
          exact hg1 j1
      · intro j1
        by_cases h : j1 = j
        · subst h
          rw [if_pos rfl]
          exact hkr
        · rw [if_neg h]
          exact hg2 j1
      · rcases hgr with h | h
        · left
          rw [if_neg (fun hc => hjr hc.symm)]
          exact h
        · rcases List.mem_cons.mp h with h | h
          · exact absurd h.symm hjr
          · right
            exact h
      · exact hdiag
      · exact hbelow
      · rcases hphase with h | h
        · left
          exact h
        · rcases List.mem_cons.mp h with h | h
          · exact absurd h.symm hjr
          · right
            exact h

end Solutions

namespace Solutions

theorem dpRowsSelf (s : Str) : ∀ (m r0 : Nat) (f : Nat → Nat) (best : Nat × Nat × Nat),
    r0 + m ≤ s.length →
    (∀ j, f j ≤ nprun s j) →
    (keptB s r0 = true → ∀ j, f j + 1 ≤ nprun s r0) →
    (keptB s r0 = true → (if r0 = 0 then 0 else f (r0 - 1)) + 1 = nprun s r0) →
    best.1 = best.2.1 →
    (∀ q, q < r0 → nprun s q ≤ best.2.2) →
    (dpRows s s 0 s.length (List.range' r0 m) f best).1 =
      (dpRows s s 0 s.length (List.range' r0 m) f best).2.1 := by
  intro m
  induction m with
  | zero =>
    intro r0 f best _ _ _ _ hdiag _
    simpa [dpRows, List.range'] using hdiag
  | succ m ih =>
    intro r0 f best hle hf1 hf2 hf3 hdiag hbelow
    have hstep : List.range' r0 (m + 1) = r0 :: List.range' (r0 + 1) m := rfl
    rw [hstep]
    simp only [dpRows]
    have hr0 : r0 < s.length := by omega
    have htrack : (fun _ => (0 : Nat)) r0 = nprun s r0 ∨ r0 ∈ b2j s (s.getD r0 ' ') := by
      by_cases hk : keptB s r0 = true
      · exact Or.inr (mem_of_keptB s r0 hk)
      · left
        have hk' : keptB s r0 = false := by
          revert hk
          cases keptB s r0 <;> simp
        rw [nprun_not_kept s r0 hk']
    have hphase : nprun s r0 ≤ best.2.2 ∨ r0 ∈ b2j s (s.getD r0 ' ') := by
      by_cases hk : keptB s r0 = true
      · exact Or.inr (mem_of_keptB s r0 hk)
      · left
        have hk' : keptB s r0 = false := by
          revert hk
          cases keptB s r0 <;> simp
        rw [nprun_not_kept s r0 hk']
        exact Nat.zero_le _
    have hrow := dpInnerSelf s r0 hr0 f hf1 hf2 hf3
      (b2j s (s.getD r0 ' ')) (fun _ => 0) best
      (fun x hx => hx) (b2j_pairwise s _)
      (fun j => Nat.zero_le _) (fun j => Nat.zero_le _)
      htrack hdiag hbelow hphase
    refine ih (r0 + 1) _ _ (by omega) hrow.1 ?_ ?_ hrow.2.2.2.1 ?_
    · intro hk j
      have h1 := hrow.2.1 j
      have h2 := nprun_kept s (r0 + 1) hk
      rw [if_neg (Nat.succ_ne_zero r0)] at h2
      simp only [Nat.add_sub_cancel] at h2
      omega
    · intro hk
      rw [if_neg (Nat.succ_ne_zero r0)]
      simp only [Nat.add_sub_cancel]
      have h2 := nprun_kept s (r0 + 1) hk
      rw [if_neg (Nat.succ_ne_zero r0)] at h2
      simp only [Nat.add_sub_cancel] at h2
      rw [hrow.2.2.1, h2]
    · intro q hq
      exact hrow.2.2.2.2 q (by omega)

theorem extendBackSelf (s : Str) : ∀ (d sz : Nat),
    extendBack s s 0 0 d d sz = (0, 0, sz + d) := by
  intro d
  induction d with
  | zero =>
    intro sz
    rw [extendBack, dif_neg]
    · simp
    · intro h
      exact absurd h.1 (Nat.lt_irrefl 0)
  | succ d ih =>
    intro sz
    rw [extendBack, dif_pos ⟨Nat.succ_pos d, Nat.succ_pos d, rfl⟩]
    simp only [Nat.add_sub_cancel]
    rw [ih (sz + 1)]
    have : sz + 1 + d = sz + (d + 1) := by omega
    rw [this]

theorem extendFwdSelf (s : Str) : ∀ (fuel sz : Nat),
    s.length - sz ≤ fuel → sz ≤ s.length →
    extendFwd s s s.length s.length 0 0 sz = s.length := by
  intro fuel
  induction fuel with
  | zero =>
    intro sz h1 h2
    have hsz : sz = s.length := by omega
    rw [extendFwd, dif_neg]
    · exact hsz
    · intro h
      omega
  | succ m ih =>
    intro sz h1 h2
    by_cases hsz : sz < s.length
    · rw [extendFwd, dif_pos ⟨by omega, by omega, rfl⟩]
      exact ih (sz + 1) (by omega) (by omega)
    · have hsz' : sz = s.length := by omega
      rw [extendFwd, dif_neg]
      · exact hsz'
      · intro h
        omega

theorem flm_self (s : Str) :
    find_longest_match s s 0 s.length 0 s.length = (0, 0, s.length) := by
  unfold find_longest_match
  simp only [Nat.sub_zero]
  have hdiag := dpRowsSelf s s.length 0 (fun _ => 0) (0, 0, 0)
    (by omega) (fun j => Nat.zero_le _)
    (fun hk j => nprun_pos_of_kept s 0 hk)
    (fun hk => by rw [nprun_kept s 0 hk]; simp)
    rfl (fun q hq => absurd hq (Nat.not_lt_zero q))
  have hok := dpRows_ok s s 0 0 s.length s.length 0 (fun _ => 0) (0, 0, 0)
    (Nat.le_refl 0) (fun j hj => absurd rfl hj)
    (by rw [BestOK_mk]; omega)
  set best := dpRows s s 0 s.length (List.range' 0 s.length) (fun _ => 0) (0, 0, 0)
    with hbestdef
  rw [← hdiag]
  rw [extendBackSelf s best.1 best.2.2]
  have hsz : best.2.2 + best.1 ≤ s.length := by
    have h1 := hok.2.2.1
    omega
  show ((0:Nat), (0:Nat),
    extendFwd s s s.length s.length 0 0 (best.2.2 + best.1)) = ((0:Nat), (0:Nat), s.length)
  rw [extendFwdSelf s (s.length - (best.2.2 + best.1)) (best.2.2 + best.1)
    (Nat.le_refl _) hsz]

theorem gmb_self (s : Str) : blocksTotal (get_matching_blocks s s) = s.length := by
  have key : blocksTotal (gmbGo s s [(0, s.length, 0, s.length)] []) = s.length := by
    rw [gmbGo, dif_pos ⟨Nat.zero_le _, Nat.zero_le _⟩]
    simp only [flm_self]
    by_cases hn : s.length = 0
    · rw [dif_pos hn]
      rw [gmbGo]
      simp [blocksTotal, hn]
    · rw [dif_neg hn]
      rw [if_neg (by omega : ¬(0 + s.length < s.length ∧ 0 + s.length < s.length))]
      rw [if_neg (by omega : ¬((0:Nat) < 0 ∧ (0:Nat) < 0))]
      rw [gmbGo]
      simp [blocksTotal]
  unfold get_matching_blocks
  rw [blocksTotal_append, blocksTotal_mergeAdjacent, blocksTotal_sortBlocks, key]
  simp [blocksTotal]

theorem ratioScore_self (s : Str) : ratioScore s s = 1 := by
  unfold ratioScore
  by_cases h : s.length + s.length ≠ 0
  · rw [if_pos h, gmb_self]
    have hn : ((s.length : ℚ) + (s.length : ℚ)) ≠ 0 := by
      have : 0 < s.length + s.length := Nat.pos_of_ne_zero h
      have h2 : (0:ℚ) < (s.length:ℚ) + (s.length:ℚ) := by exact_mod_cast this
      exact ne_of_gt h2
    rw [div_eq_one_iff_eq hn]
    ring
  · rw [if_neg h]

theorem translation_confidence_self (s : Str) :
    translation_confidence s s none = 1 := by
  unfold translation_confidence
  exact ratioScore_self s

theorem translation_confidence_nonneg (o t : Str) (b : Option Str) :
    0 ≤ translation_confidence o t b := by
  unfold translation_confidence
  exact ratioScore_nonneg o _

theorem translation_confidence_le_one (o t : Str) (b : Option Str) :
    translation_confidence o t b ≤ 1 := by
  unfold translation_confidence
  exact ratioScore_le_one o _

end Solutions

namespace Solutions

/-- C9: `translation_confidence` always returns a value in the closed
interval `[0,1]`, and `translation_confidence(s, s)` with no
`back_translated` argument returns `1.0` for every string `s` (the
backward extension loops of `find_longest_match` always complete the full
diagonal on two equal sequences, even when the autojunk heuristic prunes
the index map).  The embedding is a total function, mirroring the
source's catch-all `except: return 0.0`: no exception reaches the
caller. -/
theorem claim_C9_confidence_bounds :
    (∀ (original translated : Str) (back : Option Str),
      0 ≤ translation_confidence original translated back ∧
      translation_confidence original translated back ≤ 1) ∧
    ∀ s : Str, translation_confidence s s none = 1 :=
  ⟨fun o t b => ⟨translation_confidence_nonneg o t b, translation_confidence_le_one o t b⟩,
    translation_confidence_self⟩

/-- C4 counterexample: with the stub `envC4` the forward translation of
`"ab"` into `"fr"` succeeds (returning `"ab"`) and the back-translation
step fails, yet the produced item's confidence is
`translation_confidence("ab", "ab", None) = 1.0`, not `0.0` — refuting
the claim that a failed back-translation leaves `confidence = 0.0`. -/
theorem claim_C4_back_failure_cex :
    batch_translate envC4 [['a', 'b']] ['f', 'r'] none none false =
      [{ original := ['a', 'b'], detected := ['e', 'n'], translated := some ['a', 'b'],
         back_translation := none,
         confidence := translation_confidence ['a', 'b'] ['a', 'b'] none,
         pronunciation := none }] ∧
    translation_confidence ['a', 'b'] ['a', 'b'] none = 1 ∧ (1 : ℚ) ≠ 0 := by
  refine ⟨?_, translation_confidence_self ['a', 'b'], by norm_num⟩
  rfl

end Solutions

namespace Solutions

theorem toNat_ofNat_valid (n : Nat) (h : n.isValidChar) : (Char.ofNat n).toNat = n := by
  rw [Char.ofNat, dif_pos h]
  simp [Char.ofNatAux, Char.toNat, UInt32.toNat]

theorem isWordChar_iff (c : Char) : isWordChar c = true ↔
    (65 ≤ c.toNat ∧ c.toNat ≤ 90) ∨ (97 ≤ c.toNat ∧ c.toNat ≤ 122) ∨
    (48 ≤ c.toNat ∧ c.toNat ≤ 57) ∨ c.toNat = 95 := by
  unfold isWordChar
  simp only [Char.isAlphanum, Char.isAlpha, Char.isUpper, Char.isLower, Char.isDigit,
    Bool.or_eq_true, decide_eq_true_eq, Bool.and_eq_true]
  constructor
  · intro h
    rcases h with ((h | h) | h) | h
    · exact Or.inl ⟨h.1, h.2⟩
    · exact Or.inr (Or.inl ⟨h.1, h.2⟩)
    · exact Or.inr (Or.inr (Or.inl ⟨h.1, h.2⟩))
    · right
      right
      right
      rw [h]
      rfl
  · intro h
    rcases h with h | h | h | h
    · exact Or.inl (Or.inl (Or.inl ⟨h.1, h.2⟩))
    · exact Or.inl (Or.inl (Or.inr ⟨h.1, h.2⟩))
    · exact Or.inl (Or.inr ⟨h.1, h.2⟩)
    · right
      have hc : c = Char.ofNat 95 := by
        rw [← h, Char.ofNat_toNat]
      rw [hc]

theorem isValidChar_of_le (n : Nat) (h : n ≤ 122) : n.isValidChar :=
  Or.inl (by omega)

theorem isWordChar_toLower (c : Char) : isWordChar (Char.toLower c) = isWordChar c := by
  unfold Char.toLower
  simp only []
  split
  · next h =>
    have hval : (Char.ofNat (c.toNat + 32)).toNat = c.toNat + 32 :=
      toNat_ofNat_valid _ (isValidChar_of_le _ (by omega))
    have h1 : isWordChar (Char.ofNat (c.toNat + 32)) = true := by
      rw [isWordChar_iff, hval]
      right
      left
      omega
    have h2 : isWordChar c = true := by
      rw [isWordChar_iff]
      left
      omega
    rw [h1, h2]
  · rfl

theorem ciEq_isWordChar (a b : Char) (h : ciEq a b = true) :
    isWordChar a = isWordChar b := by
  unfold ciEq at h
  have heq : Char.toLower a = Char.toLower b := by
    exact eq_of_beq h
  calc isWordChar a = isWordChar (Char.toLower a) := (isWordChar_toLower a).symm
    _ = isWordChar (Char.toLower b) := by rw [heq]
    _ = isWordChar b := isWordChar_toLower b

end Solutions

namespace Solutions


theorem wordB_eq_prevW (p q : Option Char) : wordB p q = (prevW p != prevW q) := by
  cases p <;> cases q <;> rfl

theorem findTerm_eq_none_iff (terms : List Str) (prev : Option Char) (rest : Str) :
    findTerm terms prev rest = none ↔ ∀ t ∈ terms, matchesHere t prev rest = false := by
  induction terms with
  | nil => simp [findTerm]
  | cons u us ih =>
    simp only [findTerm]
    by_cases hm : matchesHere u prev rest = true
    · rw [if_pos hm]
      simp only [List.mem_cons]
      constructor
      · intro h
        cases h
      · intro h
        rw [h u (Or.inl rfl)] at hm
        cases hm
    · rw [if_neg hm]
      rw [ih]
      simp only [List.mem_cons]
      constructor
      · intro h t hmem
        rcases hmem with rfl | hmem
        · revert hm
          cases matchesHere t prev rest <;> simp
        · exact h t hmem
      · intro h t hmem
        exact h t (Or.inr hmem)

theorem findTerm_some_mem (terms : List Str) (prev : Option Char) (rest : Str)
    (t : Str) (h : findTerm terms prev rest = some t) : t ∈ terms := by
  induction terms with
  | nil => simp [findTerm] at h
  | cons u us ih =>
    simp only [findTerm] at h
    by_cases hm : matchesHere u prev rest = true
    · rw [if_pos hm] at h
      injection h with h2
      rw [← h2]
      exact List.mem_cons_self _ _
    · rw [if_neg hm] at h
      exact List.mem_cons_of_mem u (ih h)

theorem subScan_nil (g : Glossary) (terms : List Str) (prev : Option Char)
    (hf : findTerm terms prev [] = none) : subScan g terms prev [] = [] := by
  rw [subScan]
  split
  · next t heq =>
    rw [hf] at heq
    cases heq
  · rfl

theorem subScan_copy (g : Glossary) (terms : List Str) (prev : Option Char)
    (c : Char) (cs : Str) (hf : findTerm terms prev (c :: cs) = none) :
    subScan g terms prev (c :: cs) = c :: subScan g terms (some c) cs := by
  rw [subScan]
  split
  · next t heq =>
    rw [hf] at heq
    cases heq
  · rfl

theorem subScan_repl (g : Glossary) (terms : List Str) (prev : Option Char)
    (rest : Str) (t : Str) (hf : findTerm terms prev rest = some t)
    (ht : t ≠ []) :
    subScan g terms prev rest =
      glossReplace g (rest.take t.length) ++
        subScan g terms ((rest.take t.length).getLast?) (rest.drop t.length) := by
  rw [subScan]
  split
  · next t1 heq =>
    rw [hf] at heq
    cases heq
    rw [dif_neg (by simp [List.isEmpty_iff, ht])]
  · next heq =>
    rw [hf] at heq
    cases heq

end Solutions

namespace Solutions

theorem matchesHere_prevW (t : Str) (ht : t ≠ []) (p p2 : Option Char)
    (hp : prevW p = prevW p2) (rest : Str) :
    matchesHere t p rest = matchesHere t p2 rest := by
  have hte : t.isEmpty = false := by simp [List.isEmpty_iff, ht]
  simp only [matchesHere, hte, Bool.false_eq_true, if_false, wordB_eq_prevW, hp]

theorem matchesHere_head_nonword (t : Str) (ht : t ≠ [])
    (htw : ∀ c ∈ t, isWordChar c = true) (prev : Option Char)
    (c : Char) (hc : isWordChar c = false) (cs : Str) :
    matchesHere t prev (c :: cs) = false := by
  rcases t with _ | ⟨a, as⟩
  · exact absurd rfl ht
  · have ha : isWordChar a = true := htw a (List.mem_cons_self _ _)
    have hce : ciEq a c = false := by
      by_cases hq : ciEq a c = true
      · have h2 := ciEq_isWordChar a c hq
        rw [ha, hc] at h2
        cases h2
      · exact Bool.eq_false_iff.mpr hq
    simp [matchesHere, ciMatchTerm, hce]

theorem matchesHere_word_word (t : Str) (pc : Char) (hpc : isWordChar pc = true)
    (c : Char) (hc : isWordChar c = true) (cs : Str) :
    matchesHere t (some pc) (c :: cs) = false := by
  have hb : wordB (some pc) (some c) = false := by
    rw [wordB_eq_prevW]
    simp [prevW, hpc, hc]
  simp [matchesHere, hb]

theorem findTerm_none_head_nonword (terms : List Str)
    (hW : ∀ t ∈ terms, t ≠ [] ∧ ∀ c ∈ t, isWordChar c = true)
    (prev : Option Char) (c : Char) (hc : isWordChar c = false) (cs : Str) :
    findTerm terms prev (c :: cs) = none := by
  rw [findTerm_eq_none_iff]
  intro t htm
  exact matchesHere_head_nonword t (hW t htm).1 (hW t htm).2 prev c hc cs

theorem findTerm_none_word_word (terms : List Str) (pc : Char)
    (hpc : isWordChar pc = true) (c : Char) (hc : isWordChar c = true) (cs : Str) :
    findTerm terms (some pc) (c :: cs) = none := by
  rw [findTerm_eq_none_iff]
  intro t _
  exact matchesHere_word_word t pc hpc c hc cs

theorem findTerm_none_nil (terms : List Str)
    (hW : ∀ t ∈ terms, t ≠ []) (prev : Option Char) :
    findTerm terms prev [] = none := by
  rw [findTerm_eq_none_iff]
  intro t htm
  rcases t with _ | ⟨a, as⟩
  · exact absurd rfl (hW [] htm)
  · simp [matchesHere, ciMatchTerm]

theorem findTerm_congr (terms : List Str) (p p2 : Option Char) (rest rest2 : Str)
    (h : ∀ t ∈ terms, matchesHere t p rest = matchesHere t p2 rest2) :
    findTerm terms p rest = findTerm terms p2 rest2 := by
  induction terms with
  | nil => rfl
  | cons u us ih =>
    simp only [findTerm]
    rw [h u (List.mem_cons_self _ _)]
    by_cases hm : matchesHere u p2 rest2 = true
    · rw [if_pos hm, if_pos hm]
    · rw [if_neg hm, if_neg hm]
      exact ih (fun t htm => h t (List.mem_cons_of_mem _ htm))

theorem ciMatchTerm_append_le (t v u : Str) (h : t.length ≤ v.length) :
    ciMatchTerm t (v ++ u) = ciMatchTerm t v := by
  induction t generalizing v with
  | nil => simp [ciMatchTerm]
  | cons a as ih =>
    cases v with
    | nil => simp at h
    | cons x xs =>
      simp only [List.cons_append, ciMatchTerm, List.append_eq]
      rw [ih xs (by simpa using h)]

theorem ciMatchTerm_long_nonword (t v u : Str)
    (htw : ∀ c ∈ t, isWordChar c = true) (hu : headW u = false)
    (h : v.length < t.length) :
    ciMatchTerm t (v ++ u) = false := by
  induction v generalizing t with
  | nil =>
    rcases t with _ | ⟨a, as⟩
    · simp at h
    · rcases u with _ | ⟨d, ds⟩
      · rfl
      · have hd : isWordChar d = false := by simpa [headW, prevW] using hu
        have ha : isWordChar a = true := htw a (List.mem_cons_self _ _)
        have hce : ciEq a d = false := by
          by_cases hq : ciEq a d = true
          · have h2 := ciEq_isWordChar a d hq
            rw [ha, hd] at h2
            cases h2
          · exact Bool.eq_false_iff.mpr hq
        simp [ciMatchTerm, hce]
  | cons x xs ih =>
    rcases t with _ | ⟨a, as⟩
    · simp at h
    · simp only [List.cons_append, ciMatchTerm, List.append_eq]
      rw [ih as (fun c hc => htw c (List.mem_cons_of_mem _ hc)) (by simpa using h)]
      simp

theorem matchesHere_append_nonword (t : Str) (ht : t ≠ [])
    (htw : ∀ c ∈ t, isWordChar c = true) (v u : Str) (hu : headW u = false)
    (p : Option Char) :
    matchesHere t p (v ++ u) = matchesHere t p v := by
  by_cases hlen : t.length ≤ v.length
  · rcases v with _ | ⟨x, xs⟩
    · rcases t with _ | ⟨a, as⟩
      · exact absurd rfl ht
      · simp at hlen
    · unfold matchesHere
      rw [ciMatchTerm_append_le t (x :: xs) u hlen]
      have hhead : ((x :: xs) ++ u).head? = (x :: xs).head? := by simp
      rw [hhead, List.take_append_of_le_length hlen]
      simp only [wordB_eq_prevW]
      have hdw : prevW (((x :: xs) ++ u).drop t.length).head? =
          prevW ((x :: xs).drop t.length).head? := by
        rw [List.drop_append_of_le_length hlen]
        rcases hdrop : (x :: xs).drop t.length with _ | ⟨d, ds⟩
        · simp only [List.nil_append]
          have h2 : prevW u.head? = false := hu
          rw [h2]
          rfl
        · simp
      rw [hdw]
  · have hvlen : v.length < t.length := Nat.lt_of_not_le hlen
    have hL : ciMatchTerm t (v ++ u) = false :=
      ciMatchTerm_long_nonword t v u htw hu hvlen
    have hR : ciMatchTerm t v = false := by
      by_cases hq : ciMatchTerm t v = true
      · exact absurd (ciMatchTerm_le t v hq) hlen
      · exact Bool.eq_false_iff.mpr hq
    simp [matchesHere, hL, hR]

end Solutions

namespace Solutions

theorem wchain_headW (x y : Str) (h : wchain x y) : headW x = headW y := by
  rcases x with _ | ⟨a, as⟩ <;> rcases y with _ | ⟨b, bs⟩
  · rfl
  · show (false : Bool) = isWordChar b
    exact (h : isWordChar b = false).symm
  · exact (h : isWordChar a = false)
  · show isWordChar a = isWordChar b
    rw [show wchain (a :: as) (b :: bs) =
        (if isWordChar a = true then a = b ∧ wchain as bs else isWordChar b = false) from rfl] at h
    by_cases ha : isWordChar a = true
    · rw [if_pos ha] at h
      rw [h.1]
    · rw [if_neg ha] at h
      rw [Bool.eq_false_iff.mpr ha, h]

theorem ciMatch_wchain (t : Str) (htw : ∀ c ∈ t, isWordChar c = true) :
    ∀ x y : Str, wchain x y → ciMatchTerm t y = true →
      ciMatchTerm t x = true ∧ x.take t.length = y.take t.length ∧
      wchain (x.drop t.length) (y.drop t.length) := by
  induction t with
  | nil =>
    intro x y hw _
    exact ⟨rfl, rfl, hw⟩
  | cons a as ih =>
    intro x y hw hm
    rcases y with _ | ⟨d, ds⟩
    · cases hm
    · simp only [ciMatchTerm, Bool.and_eq_true] at hm
      have hd : isWordChar d = true := by
        have h2 := ciEq_isWordChar a d hm.1
        rw [htw a (List.mem_cons_self _ _)] at h2
        exact h2.symm
      rcases x with _ | ⟨b, bs⟩
      · rw [show wchain [] (d :: ds) = (isWordChar d = false) from rfl, hd] at hw
        cases hw
      · rw [show wchain (b :: bs) (d :: ds) =
            (if isWordChar b = true then b = d ∧ wchain bs ds else isWordChar d = false)
            from rfl] at hw
        by_cases hb : isWordChar b = true
        · rw [if_pos hb] at hw
          obtain ⟨hbd, hw2⟩ := hw
          subst hbd
          obtain ⟨h1, h2, h3⟩ :=
            ih (fun c hc => htw c (List.mem_cons_of_mem _ hc)) bs ds hw2 hm.2
          refine ⟨?_, ?_, ?_⟩
          · simp only [ciMatchTerm, Bool.and_eq_true]
            exact ⟨hm.1, h1⟩
          · rw [List.length_cons, List.take_succ_cons, List.take_succ_cons, h2]
          · rw [List.length_cons, List.drop_succ_cons, List.drop_succ_cons]
            exact h3
        · rw [if_neg hb, hd] at hw
          cases hw

theorem matchesHere_wchain (t : Str) (ht : t ≠ [])
    (htw : ∀ c ∈ t, isWordChar c = true) (x y : Str) (p : Option Char)
    (hw : wchain x y) (hm : matchesHere t p y = true) :
    matchesHere t p x = true := by
  have hte : t.isEmpty = false := by simp [List.isEmpty_iff, ht]
  simp only [matchesHere, hte, Bool.false_eq_true, if_false, Bool.and_eq_true] at hm ⊢
  obtain ⟨⟨hci, hb1⟩, hb2⟩ := hm
  obtain ⟨h1, h2, h3⟩ := ciMatch_wchain t htw x y hw hci
  have hhead : x.head? = y.head? := by
    have h4 := congrArg List.head? h2
    rcases t with _ | ⟨a, as⟩
    · exact absurd rfl ht
    · rcases x with _ | ⟨b, bs⟩ <;> rcases y with _ | ⟨d, ds⟩
      · rfl
      · cases h1
      · cases hci
      · simpa [List.length_cons, List.take_succ_cons] using h4
  refine ⟨⟨h1, ?_⟩, ?_⟩
  · rw [hhead]
    exact hb1
  · rw [h2, wordB_eq_prevW]
    rw [wordB_eq_prevW] at hb2
    have h5 : prevW (x.drop t.length).head? = prevW (y.drop t.length).head? := by
      have h6 := wchain_headW _ _ h3
      simpa [headW] using h6
    rw [h5]
    exact hb2

theorem wchain_subScan (g : Glossary) (terms : List Str)
    (hW : ∀ t ∈ terms, t ≠ [] ∧ ∀ c ∈ t, isWordChar c = true) (cs : Str) :
    ∀ pc : Char, isWordChar pc = true → wchain cs (subScan g terms (some pc) cs) := by
  induction cs with
  | nil =>
    intro pc hpc
    rw [subScan_nil g terms _ (findTerm_none_nil terms (fun t htm => (hW t htm).1) _)]
    trivial
  | cons d ds ih =>
    intro pc hpc
    have hf : findTerm terms (some pc) (d :: ds) = none := by
      by_cases hd : isWordChar d = true
      · exact findTerm_none_word_word terms pc hpc d hd ds
      · exact findTerm_none_head_nonword terms hW (some pc) d (Bool.eq_false_iff.mpr hd) ds
    rw [subScan_copy g terms _ d ds hf]
    show if isWordChar d = true then d = d ∧ wchain ds (subScan g terms (some d) ds)
      else isWordChar d = false
    by_cases hd : isWordChar d = true
    · rw [if_pos hd]
      exact ⟨rfl, ih d hd⟩
    · rw [if_neg hd]
      exact Bool.eq_false_iff.mpr hd

theorem headW_subScan (g : Glossary) (terms : List Str)
    (hW : ∀ t ∈ terms, t ≠ [] ∧ ∀ c ∈ t, isWordChar c = true)
    (prev : Option Char) (rest : Str) (h : headW rest = false) :
    headW (subScan g terms prev rest) = false := by
  rcases rest with _ | ⟨c, cs⟩
  · rw [subScan_nil g terms prev (findTerm_none_nil terms (fun t htm => (hW t htm).1) prev)]
    rfl
  · have hc : isWordChar c = false := by simpa [headW, prevW] using h
    rw [subScan_copy g terms prev c cs (findTerm_none_head_nonword terms hW prev c hc cs)]
    simpa [headW, prevW] using hc

theorem prevCtxAfter_cons (p : Option Char) (x : Char) (xs : Str) :
    prevCtxAfter p (x :: xs) = prevCtxAfter (some x) xs := by
  rcases xs with _ | ⟨y, ys⟩
  · simp [prevCtxAfter]
  · show prevCtxAfter p (x :: y :: ys) = prevCtxAfter (some x) (y :: ys)
    unfold prevCtxAfter
    rw [List.getLast?_cons_cons]
    rcases h : (y :: ys).getLast? with _ | c
    · simp at h
    · rfl

theorem scan_through (g : Glossary) (terms : List Str)
    (hW : ∀ t ∈ terms, t ≠ [] ∧ ∀ c ∈ t, isWordChar c = true) (v : Str) :
    ∀ (pA pB : Option Char) (tail : Str),
      noMatchScan terms pA v = true → prevW pB = prevW pA → headW tail = false →
      subScan g terms pB (v ++ tail) =
        v ++ subScan g terms (prevCtxAfter pB v) tail := by
  induction v with
  | nil =>
    intro pA pB tail _ _ _
    rfl
  | cons x xs ih =>
    intro pA pB tail hnm hp htail
    simp only [noMatchScan, Bool.and_eq_true, Option.isNone_iff_eq_none] at hnm
    obtain ⟨hfA, hrest⟩ := hnm
    have hfB : findTerm terms pB ((x :: xs) ++ tail) = none := by
      rw [findTerm_eq_none_iff]
      intro t htm
      have e1 : matchesHere t pB ((x :: xs) ++ tail) = matchesHere t pB (x :: xs) :=
        matchesHere_append_nonword t (hW t htm).1 (hW t htm).2 (x :: xs) tail htail pB
      have e2 : matchesHere t pB (x :: xs) = matchesHere t pA (x :: xs) :=
        matchesHere_prevW t (hW t htm).1 pB pA hp (x :: xs)
      rw [e1, e2]
      exact (findTerm_eq_none_iff terms pA (x :: xs)).mp hfA t htm
    rw [List.cons_append,
      subScan_copy g terms pB x (xs ++ tail) (by rw [← List.cons_append]; exact hfB)]
    rw [ih (some x) (some x) tail hrest rfl htail, prevCtxAfter_cons]
    rfl

end Solutions

namespace Solutions

theorem bne_true_eq (a : Bool) (h : (a != true) = true) : a = false := by
  cases a
  · rfl
  · cases h

theorem bne_true_left (x : Bool) (h : ((true : Bool) != x) = true) : x = false := by
  cases x
  · rfl
  · cases h

theorem mem_of_getLast_opt (l : Str) (c : Char) (h : l.getLast? = some c) : c ∈ l := by
  induction l with
  | nil => cases h
  | cons x xs ih =>
    rcases xs with _ | ⟨y, ys⟩
    · rw [List.getLast?_singleton] at h
      injection h with h2
      rw [← h2]
      exact List.mem_cons_self _ _
    · rw [List.getLast?_cons_cons] at h
      exact List.mem_cons_of_mem _ (ih h)

theorem ciMatchTerm_take_word (t rest : Str) (htw : ∀ c ∈ t, isWordChar c = true)
    (h : ciMatchTerm t rest = true) :
    ∀ c ∈ rest.take t.length, isWordChar c = true := by
  induction t generalizing rest with
  | nil =>
    intro c hc
    simp at hc
  | cons a as ih =>
    rcases rest with _ | ⟨d, ds⟩
    · cases h
    · simp only [ciMatchTerm, Bool.and_eq_true] at h
      intro c hc
      rw [List.length_cons, List.take_succ_cons] at hc
      rcases List.mem_cons.mp hc with rfl | hc2
      · have h2 := ciEq_isWordChar a c h.1
        rw [htw a (List.mem_cons_self _ _)] at h2
        exact h2.symm
      · exact ih ds (fun c2 hc3 => htw c2 (List.mem_cons_of_mem _ hc3)) h.2 c hc2

theorem matchesHere_facts (t : Str) (ht : t ≠ [])
    (htw : ∀ c ∈ t, isWordChar c = true) (prev : Option Char) (rest : Str)
    (hm : matchesHere t prev rest = true) :
    (∀ c ∈ rest.take t.length, isWordChar c = true) ∧
    rest.take t.length ≠ [] ∧
    prevW prev = false ∧
    headW (rest.drop t.length) = false := by
  have hte : t.isEmpty = false := by simp [List.isEmpty_iff, ht]
  simp only [matchesHere, hte, Bool.false_eq_true, if_false, Bool.and_eq_true] at hm
  obtain ⟨⟨hci, hb1⟩, hb2⟩ := hm
  have hlen := ciMatchTerm_le t rest hci
  have htlen : 1 ≤ t.length := by
    rcases t with _ | ⟨a, as⟩
    · exact absurd rfl ht
    · simp
  have htake : ∀ c ∈ rest.take t.length, isWordChar c = true :=
    ciMatchTerm_take_word t rest htw hci
  have hne : rest.take t.length ≠ [] := by
    intro hnil
    have h2 : (rest.take t.length).length = 0 := by rw [hnil]; rfl
    rw [List.length_take] at h2
    rcases Nat.min_eq_zero_iff.mp h2 with h3 | h3
    · omega
    · omega
  refine ⟨htake, hne, ?_, ?_⟩
  · rcases rest with _ | ⟨c, cs⟩
    · simp only [List.length_nil, Nat.le_zero] at hlen
      omega
    · have hcw : isWordChar c = true := htake c (by
        rcases t with _ | ⟨a, as⟩
        · exact absurd rfl ht
        · rw [List.length_cons, List.take_succ_cons]
          exact List.mem_cons_self _ _)
      rw [wordB_eq_prevW] at hb1
      have hb1a : (prevW prev != prevW (some c)) = true := by simpa using hb1
      have hpc : prevW (some c) = true := hcw
      rw [hpc] at hb1a
      exact bne_true_eq _ hb1a
  · rw [wordB_eq_prevW] at hb2
    rcases hgl : (rest.take t.length).getLast? with _ | c
    · simp at hgl
      rcases hgl with h3 | h3
      · exact absurd h3 ht
      · rw [h3] at hlen
        simp only [List.length_nil, Nat.le_zero] at hlen
        omega
    · have hcm : c ∈ rest.take t.length := mem_of_getLast_opt _ c hgl
      have hcw : isWordChar c = true := htake c hcm
      rw [hgl] at hb2
      have hpc : prevW (some c) = true := hcw
      rw [hpc] at hb2
      exact bne_true_left _ hb2

theorem mem_of_lookup (g : Glossary) (k v : Str) (h : List.lookup k g = some v) :
    (k, v) ∈ g := by
  induction g with
  | nil => cases h
  | cons p ps ih =>
    obtain ⟨pk, pv⟩ := p
    simp only [List.lookup] at h
    by_cases hk : (k == pk) = true
    · simp only [hk] at h
      injection h with h2
      have hkk : k = pk := by simpa using hk
      rw [hkk, h2]
      exact List.mem_cons_self _ _
    · simp only [Bool.eq_false_iff.mpr hk] at h
      exact List.mem_cons_of_mem _ (ih h)

theorem glossReplace_cases (g : Glossary) (m : Str) :
    glossReplace g m = m ∨ ∃ p ∈ g, glossReplace g m = p.2 := by
  rcases h1 : List.lookup (lowerStr m) g with _ | v
  · rcases h2 : List.lookup m g with _ | v2
    · left
      simp [glossReplace, h1, h2]
    · right
      refine ⟨(m, v2), mem_of_lookup g m v2 h2, ?_⟩
      simp [glossReplace, h1, h2]
  · by_cases hv : v = []
    · subst hv
      rcases h2 : List.lookup m g with _ | v2
      · left
        simp [glossReplace, h1, h2]
      · right
        refine ⟨(m, v2), mem_of_lookup g m v2 h2, ?_⟩
        simp [glossReplace, h1, h2]
    · right
      refine ⟨(lowerStr m, v), mem_of_lookup g _ v h1, ?_⟩
      simp [glossReplace, h1, hv]

theorem mem_insertTerm (x : Str) (l : List Str) (t : Str) :
    t ∈ insertTerm x l ↔ t = x ∨ t ∈ l := by
  induction l with
  | nil => simp [insertTerm]
  | cons y ys ih =>
    simp only [insertTerm]
    by_cases h : y.length ≤ x.length
    · rw [if_pos h]
      simp [List.mem_cons]
    · rw [if_neg h]
      simp only [List.mem_cons, ih]
      tauto

theorem mem_sortTermsDesc (l : List Str) (t : Str) :
    t ∈ sortTermsDesc l ↔ t ∈ l := by
  induction l with
  | nil => simp [sortTermsDesc]
  | cons x xs ih =>
    simp only [sortTermsDesc, mem_insertTerm, ih, List.mem_cons]

end Solutions

namespace Solutions

theorem idemScan (g : Glossary) (terms : List Str)
    (hW : ∀ t ∈ terms, t ≠ [] ∧ ∀ c ∈ t, isWordChar c = true)
    (hRepl : ∀ m : Str, (∀ c ∈ m, isWordChar c = true) → m ≠ [] →
      glossReplace g m = m ∨ noMatchScan terms none (glossReplace g m) = true) :
    ∀ (n : Nat) (rest : Str), rest.length ≤ n → ∀ prev prev2 : Option Char,
      (prevW prev2 = prevW prev ∨ headW rest = false) →
      subScan g terms prev2 (subScan g terms prev rest) = subScan g terms prev rest := by
  intro n
  induction n with
  | zero =>
    intro rest hlen prev prev2 _
    have hrest : rest = [] := List.length_eq_zero.mp (Nat.le_zero.mp hlen)
    subst hrest
    rw [subScan_nil g terms prev (findTerm_none_nil terms (fun t ht => (hW t ht).1) prev)]
    exact subScan_nil g terms prev2 (findTerm_none_nil terms (fun t ht => (hW t ht).1) prev2)
  | succ n ih =>
    intro rest hlen prev prev2 hinv
    rcases rest with _ | ⟨c, cs⟩
    · rw [subScan_nil g terms prev (findTerm_none_nil terms (fun t ht => (hW t ht).1) prev)]
      exact subScan_nil g terms prev2 (findTerm_none_nil terms (fun t ht => (hW t ht).1) prev2)
    · cases hf : findTerm terms prev (c :: cs) with
      | none =>
        rw [subScan_copy g terms prev c cs hf]
        by_cases hcw : isWordChar c = true
        · have hp : prevW prev2 = prevW prev := by
            rcases hinv with h | h
            · exact h
            · have hc : isWordChar c = false := by simpa [headW, prevW] using h
              rw [hcw] at hc
              cases hc
          have hwch : wchain (c :: cs) (c :: subScan g terms (some c) cs) := by
            show if isWordChar c = true then
                c = c ∧ wchain cs (subScan g terms (some c) cs)
              else isWordChar c = false
            rw [if_pos hcw]
            exact ⟨rfl, wchain_subScan g terms hW cs c hcw⟩
          have hf2 : findTerm terms prev2 (c :: subScan g terms (some c) cs) = none := by
            rw [findTerm_eq_none_iff]
            intro t htm
            by_cases hq : matchesHere t prev2 (c :: subScan g terms (some c) cs) = true
            · exfalso
              have h1 : matchesHere t prev2 (c :: cs) = true :=
                matchesHere_wchain t (hW t htm).1 (hW t htm).2 _ _ prev2 hwch hq
              rw [matchesHere_prevW t (hW t htm).1 prev2 prev hp (c :: cs)] at h1
              have h2 := (findTerm_eq_none_iff terms prev (c :: cs)).mp hf t htm
              rw [h1] at h2
              cases h2
            · exact Bool.eq_false_iff.mpr hq
          rw [subScan_copy g terms prev2 c _ hf2]
          rw [ih cs (by simp only [List.length_cons] at hlen; omega) (some c) (some c)
            (Or.inl rfl)]
        · have hc : isWordChar c = false := Bool.eq_false_iff.mpr hcw
          rw [subScan_copy g terms prev2 c _
            (findTerm_none_head_nonword terms hW prev2 c hc _)]
          rw [ih cs (by simp only [List.length_cons] at hlen; omega) (some c) (some c)
            (Or.inl rfl)]
      | some t =>
        have htm : t ∈ terms := findTerm_some_mem terms prev (c :: cs) t hf
        obtain ⟨htne, htw⟩ := hW t htm
        have hmm := findTerm_matches terms prev (c :: cs) t hf
        have hte : t.isEmpty = false := by simp [List.isEmpty_iff, htne]
        have hci : ciMatchTerm t (c :: cs) = true := by
          have h2 := hmm
          simp only [matchesHere, Bool.and_eq_true] at h2
          exact h2.1.1
        have htlenle : t.length ≤ (c :: cs).length := ciMatchTerm_le t _ hci
        have htlen1 : 1 ≤ t.length := by
          rcases t with _ | ⟨a, as⟩
          · exact absurd rfl htne
          · simp
        obtain ⟨hmw, hmne, hprev, hrest2⟩ := matchesHere_facts t htne htw prev (c :: cs) hmm
        rw [subScan_repl g terms prev (c :: cs) t hf htne]
        set m := (c :: cs).take t.length with hm_def
        set rest1 := (c :: cs).drop t.length with hrest1_def
        set out1 := subScan g terms m.getLast? rest1 with hout1_def
        have hcw : isWordChar c = true := hmw c (by
          rcases hk : t.length with _ | k
          · omega
          · rw [hm_def, hk, List.take_succ_cons]
            exact List.mem_cons_self _ _)
        have hp2 : prevW prev2 = false := by
          rcases hinv with h | h
          · rw [h, hprev]
          · have hc : isWordChar c = false := by simpa [headW, prevW] using h
            rw [hcw] at hc
            cases hc
        have hout1W : headW out1 = false := by
          rw [hout1_def]
          exact headW_subScan g terms hW _ _ hrest2
        have hlen1 : rest1.length ≤ n := by
          rw [hrest1_def, List.length_drop]
          simp only [List.length_cons] at hlen htlenle ⊢
          omega
        have ihout : ∀ ctx : Option Char, subScan g terms ctx out1 = out1 := by
          intro ctx
          rw [hout1_def]
          exact ih rest1 hlen1 m.getLast? ctx (Or.inr hrest2)
        have hmlen : m.length = t.length := by
          rw [hm_def, List.length_take]
          exact Nat.min_eq_left htlenle
        rcases hRepl m hmw hmne with hR | hR
        · rw [hR]
          have hfind2 : findTerm terms prev2 (m ++ out1) = some t := by
            rw [show some t = findTerm terms prev (c :: cs) from hf.symm]
            apply findTerm_congr
            intro t2 ht2
            have e1 : matchesHere t2 prev2 (m ++ out1) = matchesHere t2 prev2 m :=
              matchesHere_append_nonword t2 (hW t2 ht2).1 (hW t2 ht2).2 m out1 hout1W prev2
            have e2 : matchesHere t2 prev2 m = matchesHere t2 prev m :=
              matchesHere_prevW t2 (hW t2 ht2).1 prev2 prev (by rw [hp2, hprev]) m
            have e3 : matchesHere t2 prev (m ++ rest1) = matchesHere t2 prev m :=
              matchesHere_append_nonword t2 (hW t2 ht2).1 (hW t2 ht2).2 m rest1 hrest2 prev
            have e4 : (c :: cs) = m ++ rest1 :=
              (List.take_append_drop t.length (c :: cs)).symm
            rw [e1, e2, ← e3, ← e4]
          rw [subScan_repl g terms prev2 (m ++ out1) t hfind2 htne]
          have htake2 : (m ++ out1).take t.length = m := by
            rw [List.take_append_of_le_length (le_of_eq hmlen.symm), ← hmlen,
              List.take_length]
          have hdrop2 : (m ++ out1).drop t.length = out1 := by
            rw [List.drop_append_of_le_length (le_of_eq hmlen.symm), ← hmlen,
              List.drop_length, List.nil_append]
          rw [htake2, hdrop2, hR, ihout m.getLast?]
        · rw [scan_through g terms hW (glossReplace g m) none prev2 out1 hR
            (by rw [hp2]; rfl) hout1W]
          rw [ihout (prevCtxAfter prev2 (glossReplace g m))]

end Solutions

namespace Solutions


theorem subScanFuel_eq (g : Glossary) (terms : List Str)
    (hW : ∀ t ∈ terms, t ≠ []) :
    ∀ (fuel : Nat) (prev : Option Char) (rest : Str), rest.length < fuel →
      subScanFuel g terms fuel prev rest = subScan g terms prev rest := by
  intro fuel
  induction fuel with
  | zero =>
    intro prev rest h
    exact absurd h (Nat.not_lt_zero _)
  | succ f ih =>
    intro prev rest h
    cases hf : findTerm terms prev rest with
    | none =>
      rcases rest with _ | ⟨c, cs⟩
      · rw [subScan_nil g terms prev hf]
        simp [subScanFuel, hf]
      · rw [subScan_copy g terms prev c cs hf]
        simp only [subScanFuel, hf]
        rw [ih (some c) cs (by simp only [List.length_cons] at h; omega)]
    | some t =>
      have htne := hW t (findTerm_some_mem terms prev rest t hf)
      have hte : t.isEmpty = false := by simp [List.isEmpty_iff, htne]
      have hmm2 := findTerm_matches terms prev rest t hf
      have hci : ciMatchTerm t rest = true := by
        simp only [matchesHere, Bool.and_eq_true] at hmm2
        exact hmm2.1.1
      have hlt := ciMatchTerm_le t rest hci
      have ht1 : 1 ≤ t.length := by
        rcases t with _ | ⟨a, as⟩
        · exact absurd rfl htne
        · simp
      rw [subScan_repl g terms prev rest t hf htne]
      simp only [subScanFuel, hf, hte, Bool.false_eq_true, if_false]
      rw [ih ((rest.take t.length).getLast?) (rest.drop t.length)
        (by rw [List.length_drop]; omega)]

theorem apply_glossary_eval (g : Glossary) (hg : g.isEmpty = false)
    (hW : ∀ t ∈ sortTermsDesc (g.map (fun p => p.1)), t ≠ []) (text : Str) :
    apply_glossary text g =
      subScanFuel g (sortTermsDesc (g.map (fun p => p.1))) (text.length + 1)
        none text := by
  rw [apply_glossary, if_neg (by rw [hg]; exact Bool.false_ne_true)]
  exact (subScanFuel_eq g _ hW (text.length + 1) none text (Nat.lt_succ_self _)).symm

end Solutions

namespace Solutions

/-- C6: for a glossary of nonempty all-word-character terms whose
replacement values contain no whole-word occurrence of any glossary
term, applying the glossary twice equals applying it once. -/
theorem claim_C6_glossary_idempotent (g : Glossary)
    (hW : ∀ p ∈ g, p.1 ≠ [] ∧ ∀ c ∈ p.1, isWordChar c = true)
    (hR : ∀ p ∈ g,
      noMatchScan (sortTermsDesc (g.map (fun q => q.1))) none p.2 = true)
    (text : Str) :
    apply_glossary (apply_glossary text g) g = apply_glossary text g := by
  by_cases hg : g.isEmpty = true
  · simp [apply_glossary, hg]
  · have hg2 : g.isEmpty = false := Bool.eq_false_iff.mpr hg
    simp only [apply_glossary, hg2, Bool.false_eq_true, if_false]
    have hWt : ∀ t ∈ sortTermsDesc (g.map (fun q => q.1)),
        t ≠ [] ∧ ∀ c ∈ t, isWordChar c = true := by
      intro t htm
      rw [mem_sortTermsDesc] at htm
      obtain ⟨p, hp, hpt⟩ := List.mem_map.mp htm
      rw [← hpt]
      exact hW p hp
    have hReplh : ∀ m2 : Str, (∀ c ∈ m2, isWordChar c = true) → m2 ≠ [] →
        glossReplace g m2 = m2 ∨
          noMatchScan (sortTermsDesc (g.map (fun q => q.1))) none
            (glossReplace g m2) = true := by
      intro m2 _ _
      rcases glossReplace_cases g m2 with h | ⟨p, hp, hpe⟩
      · exact Or.inl h
      · right
        rw [hpe]
        exact hR p hp
    exact idemScan g _ hWt hReplh text.length text le_rfl none none (Or.inl rfl)

theorem claim_C6_glossary_idempotent_witness :
    (∀ p ∈ ([((['h','e','l','l','o'] : Str), (['b','o','n','j','o','u','r'] : Str))] :
        Glossary), p.1 ≠ [] ∧ ∀ c ∈ p.1, isWordChar c = true) ∧
    apply_glossary (apply_glossary ['s','a','y',' ','h','e','l','l','o']
        [(['h','e','l','l','o'], ['b','o','n','j','o','u','r'])])
        [(['h','e','l','l','o'], ['b','o','n','j','o','u','r'])] =
      apply_glossary ['s','a','y',' ','h','e','l','l','o']
        [(['h','e','l','l','o'], ['b','o','n','j','o','u','r'])] :=
  ⟨by decide, claim_C6_glossary_idempotent _ (by decide) (by decide) _⟩

/-- C6 counterexample: the glossary ab -> "x ab y" has no replacement
value that is a glossary key, yet applying it twice differs from
applying it once (the value contains the term "ab" as a whole word). -/
theorem claim_C6_glossary_idempotent_cex :
    (∀ p ∈ ([((['a','b'] : Str), (['x',' ','a','b',' ','y'] : Str))] : Glossary),
      ∀ q ∈ ([((['a','b'] : Str), (['x',' ','a','b',' ','y'] : Str))] : Glossary),
        p.2 ≠ q.1) ∧
    apply_glossary
        (apply_glossary ['a','b'] [(['a','b'], ['x',' ','a','b',' ','y'])])
        [(['a','b'], ['x',' ','a','b',' ','y'])] ≠
      apply_glossary ['a','b'] [(['a','b'], ['x',' ','a','b',' ','y'])] := by
  constructor
  · decide
  · have h1 : apply_glossary (['a','b'] : Str)
        [(['a','b'], ['x',' ','a','b',' ','y'])] = ['x',' ','a','b',' ','y'] := by
      rw [apply_glossary_eval _ (by decide) (by decide)]
      decide
    rw [h1]
    have h2 : apply_glossary (['x',' ','a','b',' ','y'] : Str)
        [(['a','b'], ['x',' ','a','b',' ','y'])] =
        ['x',' ','x',' ','a','b',' ','y',' ','y'] := by
      rw [apply_glossary_eval _ (by decide) (by decide)]
      decide
    rw [h2]
    decide

/-- C10 (corrected): a falsy (empty) case-insensitive lookup value falls
through to the exact-case key, but the exact-case result is used even
when it is the empty string, so an empty exact-case value deletes the
match instead of leaving it in place. -/
theorem claim_C10_empty_value (g : Glossary) (w : Str)
    (hci : List.lookup (lowerStr w) g = none ∨
      List.lookup (lowerStr w) g = some []) :
    glossReplace g w =
      (match List.lookup w g with | some v => v | none => w) := by
  rcases hci with h | h
  · simp [glossReplace, h]
  · simp [glossReplace, h]

theorem claim_C10_empty_value_witness :
    (List.lookup (lowerStr ['H','T','T','P'])
        ([((['H','T','T','P'] : Str), ([] : Str))] : Glossary) = none ∨
      List.lookup (lowerStr ['H','T','T','P'])
        ([((['H','T','T','P'] : Str), ([] : Str))] : Glossary) = some []) ∧
    glossReplace [((['H','T','T','P'] : Str), ([] : Str))] ['H','T','T','P'] =
      (match List.lookup (['H','T','T','P'] : Str)
          ([((['H','T','T','P'] : Str), ([] : Str))] : Glossary) with
        | some v => v
        | none => ['H','T','T','P']) :=
  ⟨Or.inl (by decide), claim_C10_empty_value _ _ (Or.inl (by decide))⟩

/-- C10 counterexample to the original claim: an empty replacement value
for key "HTTP" deletes the whole-word occurrence ("a HTTP b" becomes
"a  b") rather than leaving it unchanged. -/
theorem claim_C10_empty_value_cex :
    apply_glossary ['a',' ','H','T','T','P',' ','b']
        [((['H','T','T','P'] : Str), ([] : Str))] = ['a',' ',' ','b'] ∧
    apply_glossary ['a',' ','H','T','T','P',' ','b']
        [((['H','T','T','P'] : Str), ([] : Str))] ≠
      ['a',' ','H','T','T','P',' ','b'] := by
  constructor
  · rw [apply_glossary_eval _ (by decide) (by decide)]
    decide
  · rw [apply_glossary_eval _ (by decide) (by decide)]
    decide

end Solutions
